import Mathlib

/-!
Verification of the mcp-autocad-api ingester core against its specification.

The Python sources are shallowly embedded: `src/ingester/chunker.py`
(HeadingAwareChunker), `src/ingester/indexer.py` (HybridIndexer) and
`src/ingester/link_graph.py` (LinkGraphBuilder).  Python dicts are modelled as
association lists with insertion-order-preserving assignment (a reassignment
keeps the key at its original position, so keys stay unique); Python floats
are modelled as rationals (the fused-score formula is exact arithmetic);
external collaborators (BeautifulSoup parsing, the sentence-transformer
encoder, the raw FAISS search, BM25 scoring, and the byte-level faiss / pickle
/ json serializers) enter as parameters or as exact round-trips per their
contracts, while every transformation written in the repository itself is
embedded and proved about.
-/

namespace AutocadApi

/-! ## Python dict model: association lists with unique keys

`dictSet` models `d[k] = v`: the value is replaced in place when the key is
present (Python dicts keep the original key position), otherwise the pair is
appended.  A dict built only through `dictSet` from `[]` therefore has unique
keys and `dictGet` (first match) agrees with Python lookup. -/

def dictSet {β : Type} (m : List (String × β)) (k : String) (v : β) :
    List (String × β) :=
  match m with
  | [] => [(k, v)]
  | (k', v') :: rest => if k = k' then (k, v) :: rest else (k', v') :: dictSet rest k v

def dictGet {β : Type} (m : List (String × β)) (k : String) : Option β :=
  match m with
  | [] => none
  | (k', v) :: rest => if k = k' then some v else dictGet rest k

/-- Model of `d[k] = f(d[k])`-style in-place mutation of the value stored at
`k`; a no-op when the key is absent (the embedded call sites only reach it
with a present key). -/
def dictUpdate {β : Type} (m : List (String × β)) (k : String) (f : β → β) :
    List (String × β) :=
  match m with
  | [] => []
  | (k', v) :: rest => if k = k' then (k', f v) :: rest else (k', v) :: dictUpdate rest k f

def containsKey {β : Type} (m : List (String × β)) (k : String) : Bool :=
  match m with
  | [] => false
  | (k', _) :: rest => k = k' || containsKey rest k

/-- Splitter over the code points of a string: cut at every separator
character, keeping empty segments (as Python `str.split(sep)` does). -/
def splitCharAux (p : Char → Bool) : List Char → List Char → List String
  | [], acc => [String.mk acc.reverse]
  | c :: rest, acc =>
    if p c then String.mk acc.reverse :: splitCharAux p rest []
    else splitCharAux p rest (c :: acc)

def splitChar (p : Char → Bool) (s : String) : List String :=
  splitCharAux p s.data []

/-- Python `str.split()` with no argument: split on whitespace runs, dropping
empty fragments. -/
def pySplit (s : String) : List String :=
  (splitChar Char.isWhitespace s).filter (fun w => w ≠ "")

/-- Python `sep.join(parts)`. -/
def strJoin (sep : String) : List String → String
  | [] => ""
  | [x] => x
  | x :: rest => x ++ sep ++ strJoin sep rest

/-- Python `str.lower()`, on the ASCII range the embedded inputs use. -/
def lowerStr (s : String) : String :=
  String.mk (s.data.map Char.toLower)

/-- Python `str.endswith(suffix)`. -/
def strEndsWith (s suffix : String) : Bool :=
  suffix.data.isSuffixOf s.data

/-- Python `str.startswith(p)`. -/
def strStartsWith (s p : String) : Bool :=
  p.data.isPrefixOf s.data

/-! ## Chunker (`src/ingester/chunker.py`, HeadingAwareChunker)

`_extract_heading_sections` is BeautifulSoup-driven HTML parsing (an external
collaborator), so the chunking loop of `chunk_page` (lines 29-74) is embedded
over the list of section records it produces: each section carries the plain
text and the html fragment. -/

structure ChunkCfg where
  target_tokens : Nat
  overlap_tokens : Nat
  min_chunk_tokens : Nat
deriving DecidableEq, Repr

/-- Constructor defaults of `HeadingAwareChunker`. -/
def defaultChunkCfg : ChunkCfg :=
  { target_tokens := 1000, overlap_tokens := 150, min_chunk_tokens := 200 }

/-- `_estimate_tokens`: `len(text) // 4`. -/
def estimateTokens (text : String) : Nat :=
  text.length / 4

/-- `_get_overlap_text`: `words[-overlap_tokens//4:]` when there are more than
`overlap_tokens//4` words, else the empty list, joined with spaces.  The
Python negative slice `words[-0:]` is the whole list, reproduced here. -/
def getOverlapText (cfg : ChunkCfg) (text : String) : String :=
  let words := pySplit text
  let k := cfg.overlap_tokens / 4
  let overlapWords :=
    if words.length > k then (if k = 0 then words else words.drop (words.length - k))
    else []
  strJoin " " overlapWords

structure PageSection where
  text : String
  html : String
deriving DecidableEq, Repr

/-- The fields of an emitted chunk that the chunking loop itself determines
(the rest of `_create_chunk` copies page fields and runs BeautifulSoup anchor
extraction, outside this claim set). -/
structure EmittedChunk where
  content : String
  html : String
  chunk_index : Nat
  start_offset : Int
  end_offset : Int
deriving DecidableEq, Repr

structure ChunkLoopState where
  chunks : List EmittedChunk
  buf : String
  bufHtml : String
  off : Int
  idx : Nat
  /-- Ghost flag, not in the source: records whether some close dropped a
  buffer below `min_chunk_tokens`.  It never influences the computation. -/
  dropped : Bool
deriving Repr

def initChunkState : ChunkLoopState :=
  { chunks := [], buf := "", bufHtml := "", off := 0, idx := 0, dropped := false }

def mkEmitted (text html : String) (idx : Nat) (off : Int) : EmittedChunk :=
  { content := text, html := html, chunk_index := idx,
    start_offset := off, end_offset := off + text.length }

/-- One iteration of the `for section in heading_sections` loop of
`chunk_page` (lines 35-64). -/
def chunkStep (cfg : ChunkCfg) (st : ChunkLoopState) (sec : PageSection) :
    ChunkLoopState :=
  if st.buf ≠ "" ∧ estimateTokens (st.buf ++ " " ++ sec.text) > cfg.target_tokens then
    let emit := estimateTokens st.buf ≥ cfg.min_chunk_tokens
    let chunks' := if emit then st.chunks ++ [mkEmitted st.buf st.bufHtml st.idx st.off]
      else st.chunks
    let idx' := if emit then st.idx + 1 else st.idx
    let ov := getOverlapText cfg st.buf
    let buf' := if ov ≠ "" then ov ++ " " ++ sec.text else sec.text
    let off' := st.off + (buf'.length : Int) - ov.length - sec.text.length
    { chunks := chunks', buf := buf', bufHtml := sec.html, off := off', idx := idx',
      dropped := st.dropped || !emit }
  else
    if st.buf ≠ "" then
      { st with buf := st.buf ++ " " ++ sec.text, bufHtml := st.bufHtml ++ sec.html }
    else
      { st with buf := sec.text, bufHtml := sec.html }

def chunkLoop (cfg : ChunkCfg) (sections : List PageSection) : ChunkLoopState :=
  sections.foldl (chunkStep cfg) initChunkState

/-- `chunk_page` lines 29-74: the accumulation loop plus the final-chunk
emission, producing the chunk fields the loop determines. -/
def chunkPageCore (cfg : ChunkCfg) (sections : List PageSection) :
    List EmittedChunk :=
  let st := chunkLoop cfg sections
  if st.buf ≠ "" ∧ estimateTokens st.buf ≥ cfg.min_chunk_tokens then
    st.chunks ++ [mkEmitted st.buf st.bufHtml st.idx st.off]
  else st.chunks

/-! ## Data model (`src/ingester/models.py`) -/

inductive SourceType where
  | ARXMGD | ARXMGD_DEV | ARXDEV | ARXDOC | ARXIOP | ARXMGR | ARXREF | READARX
deriving DecidableEq, Repr

/-- The string value of each `SourceType` member. -/
def SourceType.value : SourceType → String
  | .ARXMGD => "arxmgd"
  | .ARXMGD_DEV => "arxmgd_dev"
  | .ARXDEV => "arxdev"
  | .ARXDOC => "arxdoc"
  | .ARXIOP => "arxiop"
  | .ARXMGR => "arxmgr"
  | .ARXREF => "arxref"
  | .READARX => "readarx"

/-- Pydantic coercion of a string to the `SourceType` str-enum by value, as
performed by `DocumentChunk(**data)` during `load_indices`. -/
def parseSourceType (s : String) : Option SourceType :=
  if s = "arxmgd" then some .ARXMGD
  else if s = "arxmgd_dev" then some .ARXMGD_DEV
  else if s = "arxdev" then some .ARXDEV
  else if s = "arxdoc" then some .ARXDOC
  else if s = "arxiop" then some .ARXIOP
  else if s = "arxmgr" then some .ARXMGR
  else if s = "arxref" then some .ARXREF
  else if s = "readarx" then some .READARX
  else none

/-- JSON-serializable values, the image of the `metadata: Dict[str, Any]`
fields under `json.dump`/`json.load` (which round-trip such values exactly). -/
inductive JsonVal where
  | str (s : String)
  | num (n : Int)
  | bool (b : Bool)
  | arr (elems : List JsonVal)
  | null

structure DocumentChunk where
  id : String
  source : SourceType
  page_id : String
  title : String
  path : String
  anchor : Option String
  content : String
  html_content : String
  chunk_index : Nat
  total_chunks : Nat
  start_offset : Int
  end_offset : Int
  metadata : List (String × JsonVal)

structure DocumentPage where
  id : String
  source : SourceType
  title : String
  path : String
  content : String
  html_content : String
  anchors : List String
  see_also : List String
  metadata : List (String × JsonVal)

structure SearchResult where
  id : String
  title : String
  path : String
  snippet : String
  score : ℚ
  source : SourceType
  chunk_index : Option Nat

/-- The per-anchor record stored in the indexer's anchor map. -/
structure AnchorEntry where
  chunk_id : String
  offset : Nat
  start_offset : Int
  end_offset : Int

/-! ## Hybrid indexer (`src/ingester/indexer.py`, HybridIndexer)

The FAISS structure, the BM25 structure and the query encoder are external
collaborators: they appear as type parameters `F`, `B`, `V` together with
deterministic functions giving the raw ranker outputs.  Everything the
repository computes from those outputs is embedded below. -/

structure IndexerState (F B : Type) where
  faiss_index : Option F
  bm25_index : Option B
  chunk_metadata : List (String × DocumentChunk × Nat)
  anchor_map : List (String × AnchorEntry)

structure ExternalRankers (F B V : Type) where
  encode : String → V
  faissRawSearch : F → V → Nat → List (ℚ × Int)
  bm25GetScores : B → List String → List ℚ

/-- The `k = 60` default of `_reciprocal_rank_fusion`. -/
def rrfK : Nat := 60

/-- Helper for the dict comprehension
`{chunk_id: rank for rank, (chunk_id, _) in enumerate(scores)}`: assignment in
enumeration order, so a duplicated id keeps its last rank. -/
def ranksGo (n : Nat) (m : List (String × Nat)) : List (String × ℚ) → List (String × Nat)
  | [] => m
  | (id, _) :: rest => ranksGo (n + 1) (dictSet m id n) rest

def ranksOf (l : List (String × ℚ)) : List (String × Nat) :=
  ranksGo 0 [] l

/-- The fused score computed inside the `for chunk_id in all_chunk_ids` loop:
`1.0 / (k + faiss_rank + 1) + 1.0 / (k + bm25_rank + 1)` with missing ranks
defaulted to `k`. -/
def fusedScoreCode (franks branks : List (String × Nat)) (id : String) : ℚ :=
  let faissRank := (dictGet franks id).getD rrfK
  let bm25Rank := (dictGet branks id).getD rrfK
  1 / ((rrfK : ℚ) + faissRank + 1) + 1 / ((rrfK : ℚ) + bm25Rank + 1)

/-- Descending order on fused-score pairs, the key of
`sorted(rrf_scores.items(), key=lambda x: x[1], reverse=True)`. -/
def scoreGe (a b : String × ℚ) : Prop := b.2 ≤ a.2

instance : DecidableRel scoreGe := fun a b => inferInstanceAs (Decidable (b.2 ≤ a.2))

/-- `_reciprocal_rank_fusion` (lines 252-274).  Python iterates the id set in
an unspecified order before sorting; the union is realized here as `dedup` of
the concatenated key lists, and the claims proved below are insensitive to
that enumeration order (they constrain membership, scores and score order). -/
def reciprocalRankFusion (faissScores bm25Scores : List (String × ℚ)) :
    List (String × ℚ) :=
  let franks := ranksOf faissScores
  let branks := ranksOf bm25Scores
  let allChunkIds := ((franks.map Prod.fst) ++ (branks.map Prod.fst)).dedup
  let rrfScores := allChunkIds.map (fun id => (id, fusedScoreCode franks branks id))
  List.insertionSort scoreGe rrfScores

/-- Rank as the specification words it: the chunk's 0-based position in the
ranker's candidate list, or the worst rank `K = 60` when absent. -/
def specRank (l : List (String × ℚ)) (id : String) : Nat :=
  if id ∈ l.map Prod.fst then (l.map Prod.fst).indexOf id else rrfK

/-- The fused score as the specification words it. -/
def specFusedScore (faissScores bm25Scores : List (String × ℚ)) (id : String) : ℚ :=
  1 / (60 + (specRank faissScores id : ℚ) + 1) + 1 / (60 + (specRank bm25Scores id : ℚ) + 1)

/-- The per-index scan of `_faiss_search` lines 220-228: keep hits whose index
is below the metadata size, resolving each index to the first chunk id owning
it.  `raw` is `zip(scores[0], indices[0])` from the external FAISS call. -/
def faissHitsToIds (raw : List (ℚ × Int))
    (meta : List (String × DocumentChunk × Nat)) : List (String × ℚ) :=
  raw.filterMap (fun p =>
    if p.2 < (meta.length : Int) then
      (meta.find? (fun e => (e.2.2 : Int) == p.2)).map (fun e => (e.1, p.1))
    else none)

/-- Descending order on BM25 document indices by score, the key of
`sorted(range(len(scores)), key=lambda i: scores[i], reverse=True)`. -/
def idxGe (scores : List ℚ) (i j : Nat) : Prop :=
  scores.getD j 0 ≤ scores.getD i 0

instance (scores : List ℚ) : DecidableRel (idxGe scores) :=
  fun i j => inferInstanceAs (Decidable (scores.getD j 0 ≤ scores.getD i 0))

/-- `_bm25_search` lines 231-250 given the external per-document scores. -/
def bm25SearchFn (getScores : List String → List ℚ)
    (meta : List (String × DocumentChunk × Nat)) (query : String) (k : Nat) :
    List (String × ℚ) :=
  let queryTokens := pySplit (lowerStr query)
  let scores := getScores queryTokens
  let topIndices := (List.insertionSort (idxGe scores) (List.range scores.length)).take k
  topIndices.filterMap (fun idx =>
    (meta.find? (fun e => e.2.2 == idx)).map (fun e => (e.1, scores.getD idx 0)))

/-- First occurrence of `needle` in `hay` starting at offset `i`, the model of
Python `str.find` (which returns the first index or -1). -/
def strFindAux (needle : List Char) : List Char → Nat → Option Nat
  | hay, i =>
    if needle.isPrefixOf hay then some i
    else
      match hay with
      | [] => none
      | _ :: t => strFindAux needle t (i + 1)

def pyStrFind (content query : String) : Option Nat :=
  strFindAux query.data content.data 0

/-- Python slice `s[a:b]` on code points. -/
def sliceStr (s : String) (a b : Nat) : String :=
  String.mk ((s.data.drop a).take (b - a))

/-- `_create_snippet` (lines 290-311). -/
def createSnippet (content query : String) (maxLength : Nat) : String :=
  match pyStrFind (lowerStr content) (lowerStr query) with
  | none => if content.length > maxLength then sliceStr content 0 maxLength ++ "..." else content
  | some queryPos =>
    let start := queryPos - maxLength / 2
    let stop := min content.length (queryPos + query.length + maxLength / 2)
    let snippet := sliceStr content start stop
    let withLeft := if start > 0 then "..." ++ snippet else snippet
    if stop < content.length then withLeft ++ "..." else withLeft

/-- `search` (lines 174-209): fail unless both indices are present, retrieve
`2k` candidates from each ranker, fuse, take `k`, and materialize
`SearchResult` records for ids present in the metadata map. -/
def searchIndexer {F B V : Type} (ext : ExternalRankers F B V)
    (st : IndexerState F B) (query : String) (k : Nat) :
    Except String (List SearchResult) :=
  match st.faiss_index, st.bm25_index with
  | some fi, some bi =>
    let faissScores := faissHitsToIds (ext.faissRawSearch fi (ext.encode query) (k * 2))
      st.chunk_metadata
    let bm25Scores := bm25SearchFn (ext.bm25GetScores bi) st.chunk_metadata query (k * 2)
    let combinedScores := reciprocalRankFusion faissScores bm25Scores
    let topResults := combinedScores.take k
    Except.ok (topResults.filterMap (fun p =>
      (dictGet st.chunk_metadata p.1).map (fun d =>
        ({ id := d.1.id, title := d.1.title, path := d.1.path,
           snippet := createSnippet d.1.content query 200,
           score := p.2, source := d.1.source,
           chunk_index := some d.1.chunk_index } : SearchResult))))
  | _, _ => Except.error "Indices not loaded"

/-! ## Persistence (`_save_indices` lines 103-130, `load_indices` lines 132-172)

`faiss.write_index`/`faiss.read_index` and `pickle.dump`/`pickle.load` are
external serializers whose contract is an exact round-trip of the index
structure, so the saved artifacts hold the structures themselves; the
repository-level transformations — `model_dump` of each chunk, the
metadata-dict layout `{chunk_id: {chunk:…, index:…}}`, the pydantic
reconstruction `DocumentChunk(**data)` with its string-to-enum coercion — are
embedded in full (`json.dump`/`json.load` round-trip JSON-able values and
preserve object key order in Python 3.7+). -/

/-- The `model_dump()` image of a chunk as serialized into `metadata.json`:
the `SourceType` member becomes its string value. -/
structure ChunkJson where
  id : String
  source : String
  page_id : String
  title : String
  path : String
  anchor : Option String
  content : String
  html_content : String
  chunk_index : Nat
  total_chunks : Nat
  start_offset : Int
  end_offset : Int
  metadata : List (String × JsonVal)

def chunkToJson (c : DocumentChunk) : ChunkJson :=
  { id := c.id, source := c.source.value, page_id := c.page_id, title := c.title,
    path := c.path, anchor := c.anchor, content := c.content,
    html_content := c.html_content, chunk_index := c.chunk_index,
    total_chunks := c.total_chunks, start_offset := c.start_offset,
    end_offset := c.end_offset, metadata := c.metadata }

/-- `DocumentChunk(**data['chunk'])`: pydantic validation, failing when the
source string is not a `SourceType` value. -/
def chunkFromJson (j : ChunkJson) : Option DocumentChunk :=
  (parseSourceType j.source).map (fun s =>
    { id := j.id, source := s, page_id := j.page_id, title := j.title,
      path := j.path, anchor := j.anchor, content := j.content,
      html_content := j.html_content, chunk_index := j.chunk_index,
      total_chunks := j.total_chunks, start_offset := j.start_offset,
      end_offset := j.end_offset, metadata := j.metadata })

structure SavedArtifacts (F B : Type) where
  faissFile : F
  bm25File : B
  metadataFile : List (String × ChunkJson × Nat)
  anchorFile : List (String × AnchorEntry)

/-- `_save_indices`: writes the four artifacts.  `faiss.write_index` is only
reached with a built index (the sole caller is `build_index`), modelled by
returning `none` when either index is absent. -/
def saveIndices {F B : Type} (st : IndexerState F B) :
    Option (SavedArtifacts F B) :=
  match st.faiss_index, st.bm25_index with
  | some fi, some bi =>
    some { faissFile := fi, bm25File := bi,
           metadataFile := st.chunk_metadata.map (fun e => (e.1, chunkToJson e.2.1, e.2.2)),
           anchorFile := st.anchor_map }
  | _, _ => none

/-- `load_indices` on a directory where all artifacts exist (the state after a
save): reconstruct every chunk record, failing if any fails validation. -/
def loadIndices {F B : Type} (a : SavedArtifacts F B) :
    Option (IndexerState F B) :=
  (a.metadataFile.mapM (fun e =>
      (chunkFromJson e.2.1).map (fun c => (e.1, c, e.2.2)))).map
    (fun meta =>
      { faiss_index := some a.faissFile, bm25_index := some a.bm25File,
        chunk_metadata := meta, anchor_map := a.anchorFile })

/-! ## Link graph (`src/ingester/link_graph.py`, LinkGraphBuilder)

`pathlib.PurePosixPath` arithmetic (`Path(p).parent`, `dir / rel`) is modelled
for the relative, already-normalized paths produced by the parsers: components
are split on `/`, empty and `.` components are dropped, and an absolute
right-hand operand replaces the left one. -/

def pathParts (p : String) : List String :=
  (splitChar (fun c => c == '/') p).filter (fun c => c ≠ "" && c ≠ ".")

/-- `str(Path(p).parent)` for a relative path (the embedded callers only pass
page paths, which are relative to the extraction root). -/
def pathParent (p : String) : String :=
  match (pathParts p).dropLast with
  | [] => "."
  | cs => strJoin "/" cs

/-- `str(Path(d) / f)` for the same path shapes. -/
def pathJoin (d f : String) : String :=
  if strStartsWith f "/" then f
  else strJoin "/" (pathParts d ++ pathParts f)

structure LinkEntry where
  parent : Option String
  children : List String
  see_also : List String
deriving DecidableEq, Repr

def LGraph : Type := List (String × LinkEntry)

inductive TOCTreeNode where
  | mk (title : String) (path : String) (children : List TOCTreeNode)

def TOCTreeNode.path : TOCTreeNode → String
  | .mk _ p _ => p

def TOCTreeNode.children : TOCTreeNode → List TOCTreeNode
  | .mk _ _ cs => cs

/-- `build_graph` lines 27-33 builds `path_to_id` and the empty-entry graph in
one loop over `pages`; the two dicts are independent, so they are built by two
folds over the same list. -/
def buildPathToId (pages : List DocumentPage) : List (String × String) :=
  pages.foldl (fun m p => dictSet m p.path p.id) []

def initGraph (pages : List DocumentPage) : LGraph :=
  pages.foldl (fun g p => dictSet g p.id { parent := none, children := [], see_also := [] }) []

/-- Lines 64-68: `graph[page_id]['parent'] = parent_id` followed by the
membership-guarded append of `page_id` to `graph[parent_id]['children']`.
Every `parent_id` reaching this point is a `path_to_id` value and hence a
graph key, so the absent-key no-op of `dictUpdate` is never the taken path. -/
def setParentChild (g : LGraph) (pageId parentId : String) : LGraph :=
  let g1 := dictUpdate g pageId (fun e => { e with parent := some parentId })
  if pageId ∈ ((dictGet g1 parentId).map LinkEntry.children).getD [] then g1
  else dictUpdate g1 parentId (fun e => { e with children := e.children ++ [pageId] })

/-- `_process_toc_node` (lines 48-72) over a work list, as called from the
`_add_toc_relationships` loop: a node with a falsy path or an unresolvable or
falsy page id is transparent (its children keep the current parent), otherwise
the parent/child edges are recorded and the children descend with this node's
page id as parent.  Python truthiness of `parent_id` and `page_id` (both
`None` and `""` are falsy) is reproduced. -/
def processTocList (ptid : List (String × String)) :
    List TOCTreeNode → Option String → LGraph → LGraph
  | [], _, g => g
  | TOCTreeNode.mk _ path children :: rest, parentId, g =>
    let g' :=
      if path = "" then processTocList ptid children parentId g
      else
        match dictGet ptid path with
        | none => processTocList ptid children parentId g
        | some pageId =>
          if pageId = "" then processTocList ptid children parentId g
          else
            let g1 :=
              match parentId with
              | some par =>
                if par ≠ "" ∧ containsKey g pageId then setParentChild g pageId par else g
              | none => g
            processTocList ptid children (some pageId) g1
    processTocList ptid rest parentId g'

/-- `_resolve_link_path` lines 103-113, one extension attempt: skip when the
reference already ends with the extension, else direct then relative lookup of
the extended path. -/
def tryExtension (ptid : List (String × String)) (currentDir linkPath ext : String) :
    Option String :=
  if strEndsWith linkPath ext then none
  else
    match dictGet ptid (linkPath ++ ext) with
    | some id => some id
    | none => dictGet ptid (pathJoin currentDir (linkPath ++ ext))

/-- `_resolve_link_path` (lines 88-115): direct match, then relative to the
referencing page's directory, then the `.html` and `.htm` retries in order. -/
def resolveLinkPath (ptid : List (String × String)) (linkPath currentPath : String) :
    Option String :=
  match dictGet ptid linkPath with
  | some id => some id
  | none =>
    let currentDir := pathParent currentPath
    match dictGet ptid (pathJoin currentDir linkPath) with
    | some id => some id
    | none =>
      match tryExtension ptid currentDir linkPath ".html" with
      | some id => some id
      | none => tryExtension ptid currentDir linkPath ".htm"

/-- Inner loop of `_add_see_also_relationships` (lines 74-86) for one page:
resolved targets that are truthy, not the page itself and not already present
are appended to the page's `see_also`. -/
def addSeeAlsoForPage (ptid : List (String × String)) (g : LGraph)
    (page : DocumentPage) : LGraph :=
  if containsKey g page.id then
    page.see_also.foldl (fun g2 linkPath =>
      match resolveLinkPath ptid linkPath page.path with
      | some targetId =>
        if targetId ≠ "" ∧ targetId ≠ page.id then
          if targetId ∈ ((dictGet g2 page.id).map LinkEntry.see_also).getD [] then g2
          else dictUpdate g2 page.id (fun e => { e with see_also := e.see_also ++ [targetId] })
        else g2
      | none => g2) g
  else g

def addSeeAlsoRelationships (ptid : List (String × String)) (g : LGraph)
    (pages : List DocumentPage) : LGraph :=
  pages.foldl (addSeeAlsoForPage ptid) g

/-- `build_graph` (lines 20-41). -/
def buildGraph (toc : List TOCTreeNode) (pages : List DocumentPage) : LGraph :=
  let ptid := buildPathToId pages
  let g0 := initGraph pages
  let g1 := processTocList ptid toc none g0
  addSeeAlsoRelationships ptid g1 pages

/-- View of `graph[p]['parent']`. -/
def parentD (g : LGraph) (p : String) : Option String :=
  ((dictGet g p).map LinkEntry.parent).getD none

/-- View of `graph[p]['children']` (empty when absent). -/
def childrenD (g : LGraph) (p : String) : List String :=
  ((dictGet g p).map LinkEntry.children).getD []

/-- View of `graph[p]['see_also']` (empty when absent). -/
def seeAlsoD (g : LGraph) (p : String) : List String :=
  ((dictGet g p).map LinkEntry.see_also).getD []

/-- The page id a TOC node path resolves to, with Python truthiness: `none`
for an empty path, an absent path, or an empty mapped id. -/
def resolveNode (ptid : List (String × String)) (path : String) : Option String :=
  if path = "" then none
  else
    match dictGet ptid path with
    | some pid => if pid = "" then none else some pid
    | none => none

/-- All resolved TOC parent/child pairs `(P, C)`: `P` a node whose path
resolves, `C` a direct child of `P` whose path also resolves. -/
def resolvedPairs (ptid : List (String × String)) :
    List TOCTreeNode → List (String × String)
  | [] => []
  | TOCTreeNode.mk _ path children :: rest =>
    (match resolveNode ptid path with
     | some pp => children.filterMap (fun c => (resolveNode ptid c.path).map (fun cc => (pp, cc)))
     | none => []) ++ resolvedPairs ptid children ++ resolvedPairs ptid rest

/-- The multiset of page ids the TOC nodes resolve to, in walk order. -/
def resolvedIds (ptid : List (String × String)) :
    List TOCTreeNode → List String
  | [] => []
  | TOCTreeNode.mk _ path children :: rest =>
    (match resolveNode ptid path with
     | some pid => [pid]
     | none => []) ++ resolvedIds ptid children ++ resolvedIds ptid rest

/-! ## Aliasing model of `get_neighbors` (lines 128-133)

`get_neighbors` returns `self.graph[page_id].copy()`: `dict.copy()` is
shallow, so the `children` and `see_also` values of the returned dict are the
very list objects stored in the graph.  To reason about mutation through the
returned record, list objects live in an explicit heap addressed by `Nat`
references, and each stored entry holds references. -/

structure GNEntry where
  parent : Option String
  childrenRef : Nat
  seeAlsoRef : Nat
deriving DecidableEq, Repr

structure GNState where
  heap : List (List String)
  graph : List (String × GNEntry)
deriving DecidableEq, Repr

/-- Allocation of a fresh Python list object. -/
def gnAlloc (st : GNState) (l : List String) : GNState × Nat :=
  ({ st with heap := st.heap ++ [l] }, st.heap.length)

/-- `get_neighbors(page_id)`: for a known id, a shallow copy of the stored
entry — a new top-level record holding the same list references; for an
unknown id, `{'parent': None, 'children': [], 'see_also': []}` with freshly
allocated empty lists. -/
def getNeighbors (st : GNState) (pid : String) : GNEntry × GNState :=
  match dictGet st.graph pid with
  | some e => (e, st)
  | none =>
    let a1 := gnAlloc st []
    let a2 := gnAlloc a1.1 []
    ({ parent := none, childrenRef := a1.2, seeAlsoRef := a2.2 }, a2.1)

/-- `lst.append(x)` on the list object at reference `r`. -/
def heapAppendAt (st : GNState) (r : Nat) (x : String) : GNState :=
  { st with heap := st.heap.set r ((st.heap.getD r []) ++ [x]) }

/-- The children list of the stored graph entry for `pid`, read through the
heap. -/
def storedChildren (st : GNState) (pid : String) : Option (List String) :=
  (dictGet st.graph pid).map (fun e => st.heap.getD e.childrenRef [])

/-! ## Dict model lemmas -/

theorem dictGet_dictSet_self {β : Type} (m : List (String × β)) (k : String) (v : β) :
    dictGet (dictSet m k v) k = some v := by
  induction m with
  | nil => simp [dictSet, dictGet]
  | cons h t ih =>
    by_cases hk : k = h.1
    · simp [dictSet, dictGet, hk]
    · simp [dictSet, dictGet, hk, ih]

theorem dictGet_dictSet_ne {β : Type} (m : List (String × β)) (k : String) (v : β)
    (k' : String) (h : k' ≠ k) : dictGet (dictSet m k v) k' = dictGet m k' := by
  induction m with
  | nil => simp [dictSet, dictGet, h]
  | cons hd t ih =>
    by_cases hk : k = hd.1
    · subst hk
      simp [dictSet, dictGet, h]
    · by_cases hk' : k' = hd.1
      · simp [dictSet, dictGet, hk, hk']
      · simp [dictSet, dictGet, hk, hk', ih]

theorem dictGet_dictUpdate_self {β : Type} (m : List (String × β)) (k : String)
    (f : β → β) : dictGet (dictUpdate m k f) k = (dictGet m k).map f := by
  induction m with
  | nil => simp [dictUpdate, dictGet]
  | cons hd t ih =>
    by_cases hk : k = hd.1
    · simp [dictUpdate, dictGet, hk]
    · simp [dictUpdate, dictGet, hk, ih]

theorem dictGet_dictUpdate_ne {β : Type} (m : List (String × β)) (k : String)
    (f : β → β) (k' : String) (h : k' ≠ k) :
    dictGet (dictUpdate m k f) k' = dictGet m k' := by
  induction m with
  | nil => simp [dictUpdate, dictGet]
  | cons hd t ih =>
    by_cases hk : k = hd.1
    · subst hk
      simp [dictUpdate, dictGet, h]
    · by_cases hk' : k' = hd.1
      · simp [dictUpdate, dictGet, hk, hk']
      · simp [dictUpdate, dictGet, hk, hk', ih]

theorem containsKey_eq_isSome {β : Type} (m : List (String × β)) (k : String) :
    containsKey m k = (dictGet m k).isSome := by
  induction m with
  | nil => simp [containsKey, dictGet]
  | cons hd t ih =>
    by_cases hk : k = hd.1
    · simp [containsKey, dictGet, hk]
    · simp [containsKey, dictGet, hk, ih]

theorem containsKey_dictUpdate {β : Type} (m : List (String × β)) (k : String)
    (f : β → β) (k' : String) : containsKey (dictUpdate m k f) k' = containsKey m k' := by
  induction m with
  | nil => simp [dictUpdate]
  | cons hd t ih =>
    by_cases hk : k = hd.1
    · simp [dictUpdate, containsKey, hk]
    · simp [dictUpdate, containsKey, hk, ih]

theorem containsKey_dictSet {β : Type} (m : List (String × β)) (k : String) (v : β)
    (k' : String) : containsKey (dictSet m k v) k' = (if k' = k then true else containsKey m k') := by
  induction m with
  | nil => by_cases hk : k' = k <;> simp [dictSet, containsKey, hk]
  | cons hd t ih =>
    by_cases hk : k = hd.1
    · subst hk
      by_cases hk' : k' = hd.1 <;> simp [dictSet, containsKey, hk']
    · by_cases hk' : k' = hd.1
      · simp [dictSet, containsKey, hk, hk']
      · simp [dictSet, containsKey, hk, hk', ih]

/-! ## Claim theorems -/

/-- C10: a closed buffer holding at most `overlap_tokens / 4` whitespace-
delimited words yields an empty overlap seed, and the next buffer after such
a close is exactly the triggering section's text, with nothing carried over. -/
theorem small_buffer_empty_overlap_seed (cfg : ChunkCfg) (st : ChunkLoopState)
    (sec : PageSection)
    (hclose : st.buf ≠ "" ∧ estimateTokens (st.buf ++ " " ++ sec.text) > cfg.target_tokens)
    (hwords : (pySplit st.buf).length ≤ cfg.overlap_tokens / 4) :
    getOverlapText cfg st.buf = "" ∧ (chunkStep cfg st sec).buf = sec.text := by
  have hov : getOverlapText cfg st.buf = "" := by
    unfold getOverlapText
    have : ¬ (pySplit st.buf).length > cfg.overlap_tokens / 4 := by omega
    simp [this, strJoin]
  refine ⟨hov, ?_⟩
  unfold chunkStep
  simp [hclose, hov]

theorem small_buffer_empty_overlap_seed_witness :
    let cfg : ChunkCfg := { target_tokens := 4, overlap_tokens := 4, min_chunk_tokens := 0 }
    let st : ChunkLoopState :=
      { chunks := [], buf := "abcdefgh", bufHtml := "", off := 0, idx := 0, dropped := false }
    let sec : PageSection := { text := "0123456789ab", html := "h" }
    getOverlapText cfg st.buf = "" ∧ (chunkStep cfg st sec).buf = sec.text :=
  small_buffer_empty_overlap_seed _ _ _ (by decide) (by decide)

/-- C9: calling `search` when either index is missing fails with the
`"Indices not loaded"` precondition error, an outcome distinct from an empty
result list. -/
theorem search_requires_loaded_indices {F B V : Type} (ext : ExternalRankers F B V)
    (st : IndexerState F B) (query : String) (k : Nat)
    (h : st.faiss_index = none ∨ st.bm25_index = none) :
    searchIndexer ext st query k = Except.error "Indices not loaded" ∧
      searchIndexer ext st query k ≠ Except.ok ([] : List SearchResult) := by
  have herr : searchIndexer ext st query k = Except.error "Indices not loaded" := by
    unfold searchIndexer
    rcases h with h | h
    · rw [h]
    · rw [h]
      rcases st.faiss_index with _ | fi <;> rfl
  exact ⟨herr, by rw [herr]; intro hcontra; exact Except.noConfusion hcontra⟩

theorem search_requires_loaded_indices_witness :
    searchIndexer
        ({ encode := fun _ => (), faissRawSearch := fun _ _ _ => [],
           bm25GetScores := fun _ _ => [] } : ExternalRankers Unit Unit Unit)
        ({ faiss_index := none, bm25_index := some (), chunk_metadata := [],
           anchor_map := [] } : IndexerState Unit Unit) "q" 5 =
      Except.error "Indices not loaded" :=
  (search_requires_loaded_indices _ _ "q" 5 (Or.inl rfl)).1

/-- C8 counterexample: `get_neighbors` is not a value-copy.  For a stored page
`"a"` with empty lists, appending `"x"` to the `children` list of the record
`get_neighbors` returned changes the builder's stored graph — the returned
dict shares its list objects with the stored entry. -/
theorem get_neighbors_copy_counterexample :
    let st : GNState :=
      { heap := [[], []],
        graph := [("a", { parent := none, childrenRef := 0, seeAlsoRef := 1 })] }
    let r := getNeighbors st "a"
    storedChildren (heapAppendAt r.2 r.1.childrenRef "x") "a" ≠ storedChildren st "a" := by
  decide

/-- C8 amended: for a known page id, `get_neighbors` returns a record holding
the stored entry's fields — in particular the same `children`/`see_also` list
references — without changing the state, so appending through the returned
record's children reference appends to the builder's stored children list
(`dict.copy()` is shallow). -/
theorem get_neighbors_shallow_sharing (st : GNState) (pid : String) (e : GNEntry)
    (hget : dictGet st.graph pid = some e) (href : e.childrenRef < st.heap.length)
    (x : String) :
    getNeighbors st pid = (e, st) ∧
    storedChildren (heapAppendAt st e.childrenRef x) pid =
      some (st.heap.getD e.childrenRef [] ++ [x]) := by
  constructor
  · unfold getNeighbors
    rw [hget]
  · unfold storedChildren heapAppendAt
    simp only [hget, Option.map_some', List.getD_eq_getElem?_getD]
    rw [List.getElem?_set_eq_of_lt _ href]
    rfl

theorem get_neighbors_shallow_sharing_witness :
    let st : GNState :=
      { heap := [["k"], []],
        graph := [("a", { parent := none, childrenRef := 0, seeAlsoRef := 1 })] }
    getNeighbors st "a" = ({ parent := none, childrenRef := 0, seeAlsoRef := 1 }, st) ∧
    storedChildren (heapAppendAt st 0 "x") "a" = some (["k"] ++ ["x"]) :=
  get_neighbors_shallow_sharing _ "a" _ (by decide) (by decide) "x"

/-! ### C2: persistence round-trip -/

theorem parseSourceType_value (s : SourceType) : parseSourceType s.value = some s := by
  cases s <;> decide

theorem chunk_json_roundtrip (c : DocumentChunk) : chunkFromJson (chunkToJson c) = some c := by
  cases c with
  | mk id source page_id title path anchor content html_content chunk_index
      total_chunks start_offset end_offset metadata =>
    simp [chunkToJson, chunkFromJson, parseSourceType_value]

theorem metadata_roundtrip (l : List (String × DocumentChunk × Nat)) :
    (l.map (fun e => (e.1, chunkToJson e.2.1, e.2.2))).mapM
      (fun e => (chunkFromJson e.2.1).map (fun c => (e.1, c, e.2.2))) = some l := by
  induction l with
  | nil => rfl
  | cons h t ih =>
    rw [List.map_cons, List.mapM_cons, chunk_json_roundtrip, ih]
    rfl

/-- A save followed by a load reconstructs the indexer state exactly: the
faiss and pickle files round-trip by their serializer contracts, and the
repository's own metadata serialization (`model_dump` per chunk, the id-keyed
layout, the pydantic reconstruction) is inverse to its deserialization. -/
theorem save_load_state {F B : Type} (st : IndexerState F B) (art : SavedArtifacts F B)
    (h : saveIndices st = some art) : loadIndices art = some st := by
  obtain ⟨fo, bo, meta, am⟩ := st
  rcases fo with _ | fi
  · simp [saveIndices] at h
  · rcases bo with _ | bi
    · simp [saveIndices] at h
    · simp only [saveIndices] at h
      rw [Option.some_inj] at h
      subst h
      unfold loadIndices
      rw [metadata_roundtrip]
      rfl

/-- C2: search results on an index instance that loaded the saved artifacts
are identical — same ids, order and scores — to the results on the index the
artifacts were saved from, for every query and k. -/
theorem search_roundtrip_save_load {F B V : Type} (ext : ExternalRankers F B V)
    (st st' : IndexerState F B) (art : SavedArtifacts F B) (query : String) (k : Nat)
    (hs : saveIndices st = some art) (hl : loadIndices art = some st') :
    searchIndexer ext st' query k = searchIndexer ext st query k := by
  have h := save_load_state st art hs
  rw [hl, Option.some_inj] at h
  rw [h]

def testChunk : DocumentChunk :=
  { id := "c0", source := .ARXMGD, page_id := "p0", title := "T", path := "p.html",
    anchor := none, content := "hello world", html_content := "<p>hello world</p>",
    chunk_index := 0, total_chunks := 1, start_offset := 0, end_offset := 11,
    metadata := [("word_count", JsonVal.num 2)] }

theorem search_roundtrip_save_load_witness :
    let st : IndexerState Unit Unit :=
      { faiss_index := some (), bm25_index := some (),
        chunk_metadata := [("c0", testChunk, 0)], anchor_map := [] }
    let ext : ExternalRankers Unit Unit Unit :=
      { encode := fun _ => (), faissRawSearch := fun _ _ _ => [(1, 0)],
        bm25GetScores := fun _ _ => [1] }
    ∃ art st2, saveIndices st = some art ∧ loadIndices art = some st2 ∧
      searchIndexer ext st2 "hello" 3 = searchIndexer ext st "hello" 3 :=
  ⟨_, _, rfl, rfl, search_roundtrip_save_load _ _ _ _ "hello" 3 rfl rfl⟩

/-! ### C1 and C4: reciprocal rank fusion -/

theorem mem_fst_dictSet {β : Type} (m : List (String × β)) (k : String) (v : β)
    (k' : String) : k' ∈ (dictSet m k v).map Prod.fst ↔ (k' = k ∨ k' ∈ m.map Prod.fst) := by
  induction m with
  | nil => simp [dictSet]
  | cons hd t ih =>
    by_cases hk : k = hd.1
    · subst hk
      simp [dictSet]
    · simp only [dictSet, if_neg hk, List.map_cons, List.mem_cons, ih]
      tauto

theorem ranksGo_get_not_mem (l : List (String × ℚ)) (n : Nat) (m : List (String × Nat))
    (id : String) (h : id ∉ l.map Prod.fst) :
    dictGet (ranksGo n m l) id = dictGet m id := by
  induction l generalizing n m with
  | nil => rfl
  | cons hd t ih =>
    simp only [List.map_cons, List.mem_cons, not_or] at h
    obtain ⟨hd1, hd2⟩ := h
    obtain ⟨a, q⟩ := hd
    rw [show ranksGo n m ((a, q) :: t) = ranksGo (n + 1) (dictSet m a n) t from rfl]
    rw [ih _ _ hd2, dictGet_dictSet_ne _ _ _ _ hd1]

theorem ranksGo_get_nodup (l : List (String × ℚ)) (n : Nat) (m : List (String × Nat))
    (id : String) (hnd : (l.map Prod.fst).Nodup) (hmem : id ∈ l.map Prod.fst) :
    dictGet (ranksGo n m l) id = some (n + (l.map Prod.fst).indexOf id) := by
  induction l generalizing n m with
  | nil => cases hmem
  | cons hd t ih =>
    obtain ⟨a, q⟩ := hd
    rw [show ranksGo n m ((a, q) :: t) = ranksGo (n + 1) (dictSet m a n) t from rfl]
    simp only [List.map_cons, List.nodup_cons] at hnd
    by_cases hid : id = a
    · subst hid
      rw [ranksGo_get_not_mem _ _ _ _ hnd.1, dictGet_dictSet_self]
      simp [List.indexOf_cons_self]
    · have hmem' : id ∈ t.map Prod.fst := by
        simpa [hid] using hmem
      rw [ih _ _ hnd.2 hmem']
      have : (List.map Prod.fst ((a, q) :: t)).indexOf id = (t.map Prod.fst).indexOf id + 1 := by
        simp only [List.map_cons]
        rw [List.indexOf_cons_ne _ (Ne.symm hid)]
      rw [this]
      congr 1
      omega

theorem mem_fst_ranksGo (l : List (String × ℚ)) (n : Nat) (m : List (String × Nat))
    (id : String) :
    id ∈ (ranksGo n m l).map Prod.fst ↔ (id ∈ m.map Prod.fst ∨ id ∈ l.map Prod.fst) := by
  induction l generalizing n m with
  | nil => simp [ranksGo]
  | cons hd t ih =>
    obtain ⟨a, q⟩ := hd
    rw [show ranksGo n m ((a, q) :: t) = ranksGo (n + 1) (dictSet m a n) t from rfl]
    rw [ih]
    simp only [mem_fst_dictSet, List.map_cons, List.mem_cons]
    tauto

/-- Bridge between the dict-based rank of the code and the positional rank of
the specification, on duplicate-free candidate lists. -/
theorem ranks_getD_eq_specRank (l : List (String × ℚ)) (id : String)
    (hnd : (l.map Prod.fst).Nodup) :
    (dictGet (ranksOf l) id).getD rrfK = specRank l id := by
  unfold ranksOf specRank
  by_cases hmem : id ∈ l.map Prod.fst
  · rw [ranksGo_get_nodup _ _ _ _ hnd hmem]
    simp [hmem]
  · rw [ranksGo_get_not_mem _ _ _ _ hmem]
    simp [hmem, dictGet]

theorem fusedScoreCode_eq_spec (f b : List (String × ℚ)) (id : String)
    (hf : (f.map Prod.fst).Nodup) (hb : (b.map Prod.fst).Nodup) :
    fusedScoreCode (ranksOf f) (ranksOf b) id = specFusedScore f b id := by
  unfold fusedScoreCode specFusedScore
  rw [ranks_getD_eq_specRank _ _ hf, ranks_getD_eq_specRank _ _ hb]
  norm_num [rrfK]

def rrfAllIds (f b : List (String × ℚ)) : List String :=
  ((ranksOf f).map Prod.fst ++ (ranksOf b).map Prod.fst).dedup

def rrfScored (f b : List (String × ℚ)) : List (String × ℚ) :=
  (rrfAllIds f b).map (fun id => (id, fusedScoreCode (ranksOf f) (ranksOf b) id))

theorem rrf_eq_sort_scored (f b : List (String × ℚ)) :
    reciprocalRankFusion f b = List.insertionSort scoreGe (rrfScored f b) := rfl

theorem mem_rrfAllIds (f b : List (String × ℚ)) (id : String) :
    id ∈ rrfAllIds f b ↔ (id ∈ f.map Prod.fst ∨ id ∈ b.map Prod.fst) := by
  unfold rrfAllIds ranksOf
  rw [List.mem_dedup, List.mem_append, mem_fst_ranksGo, mem_fst_ranksGo]
  simp

theorem rrf_perm_scored (f b : List (String × ℚ)) :
    (reciprocalRankFusion f b).Perm (rrfScored f b) := by
  rw [rrf_eq_sort_scored]
  exact List.perm_insertionSort _ _

theorem rrf_mem_score (f b : List (String × ℚ)) (p : String × ℚ)
    (hf : (f.map Prod.fst).Nodup) (hb : (b.map Prod.fst).Nodup)
    (hp : p ∈ reciprocalRankFusion f b) : p.2 = specFusedScore f b p.1 := by
  have hmem : p ∈ rrfScored f b := (rrf_perm_scored f b).mem_iff.mp hp
  unfold rrfScored at hmem
  obtain ⟨id, _, rfl⟩ := List.mem_map.mp hmem
  exact fusedScoreCode_eq_spec f b id hf hb

theorem rrf_mem_of_candidate (f b : List (String × ℚ)) (id : String)
    (hf : (f.map Prod.fst).Nodup) (hb : (b.map Prod.fst).Nodup)
    (h : id ∈ f.map Prod.fst ∨ id ∈ b.map Prod.fst) :
    (id, specFusedScore f b id) ∈ reciprocalRankFusion f b := by
  have hid : id ∈ rrfAllIds f b := (mem_rrfAllIds f b id).mpr h
  have : (id, fusedScoreCode (ranksOf f) (ranksOf b) id) ∈ rrfScored f b := by
    unfold rrfScored
    exact List.mem_map.mpr ⟨id, hid, rfl⟩
  rw [fusedScoreCode_eq_spec f b id hf hb] at this
  exact (rrf_perm_scored f b).mem_iff.mpr this

instance : IsTotal (String × ℚ) scoreGe := ⟨fun a b => le_total b.2 a.2⟩

instance : IsTrans (String × ℚ) scoreGe := ⟨fun _ _ _ h1 h2 => le_trans h2 h1⟩

/-- C1: on duplicate-free candidate lists (as produced by the two searches),
every fused entry carries the score `1/(60 + rank_dense + 1) +
1/(60 + rank_lexical + 1)` with a missing candidate penalized at rank 60, the
output ids are exactly the union of the two candidate id sets, and the output
is sorted by descending fused score. -/
theorem rrf_fused_scores_and_order (faissScores bm25Scores : List (String × ℚ))
    (hf : (faissScores.map Prod.fst).Nodup) (hb : (bm25Scores.map Prod.fst).Nodup) :
    (∀ p ∈ reciprocalRankFusion faissScores bm25Scores,
        p.2 = specFusedScore faissScores bm25Scores p.1) ∧
    (∀ id, id ∈ (reciprocalRankFusion faissScores bm25Scores).map Prod.fst ↔
        (id ∈ faissScores.map Prod.fst ∨ id ∈ bm25Scores.map Prod.fst)) ∧
    (reciprocalRankFusion faissScores bm25Scores).Sorted scoreGe := by
  refine ⟨fun p hp => rrf_mem_score _ _ p hf hb hp, fun id => ?_, ?_⟩
  · rw [← mem_rrfAllIds]
    have h1 : ((reciprocalRankFusion faissScores bm25Scores).map Prod.fst).Perm
        ((rrfScored faissScores bm25Scores).map Prod.fst) :=
      (rrf_perm_scored _ _).map Prod.fst
    rw [h1.mem_iff]
    unfold rrfScored
    simp [List.map_map, Function.comp]
  · rw [rrf_eq_sort_scored]
    exact List.sorted_insertionSort scoreGe _

theorem rrf_fused_scores_and_order_witness :
    let f : List (String × ℚ) := [("a", 2), ("b", 1)]
    let b : List (String × ℚ) := [("b", 9)]
    (f.map Prod.fst).Nodup ∧ (b.map Prod.fst).Nodup ∧
    ((∀ p ∈ reciprocalRankFusion f b, p.2 = specFusedScore f b p.1) ∧
     (∀ id, id ∈ (reciprocalRankFusion f b).map Prod.fst ↔
        (id ∈ f.map Prod.fst ∨ id ∈ b.map Prod.fst)) ∧
     (reciprocalRankFusion f b).Sorted scoreGe) :=
  ⟨by decide, by decide, rrf_fused_scores_and_order _ _ (by decide) (by decide)⟩

theorem specRank_cons_self (c : String) (q : ℚ) (rest : List (String × ℚ)) :
    specRank ((c, q) :: rest) c = 0 := by
  unfold specRank
  simp

/-- C4: a chunk at rank 0 of both candidate lists appears in the fusion
output with the maximal fused score: every output entry's score is bounded by
its fused score `1/61 + 1/61`. -/
theorem rrf_rank_zero_both_highest (faissScores bm25Scores : List (String × ℚ))
    (c : String) (q1 q2 : ℚ) (rest1 rest2 : List (String × ℚ))
    (hf : faissScores = (c, q1) :: rest1) (hb : bm25Scores = (c, q2) :: rest2)
    (hfn : (faissScores.map Prod.fst).Nodup) (hbn : (bm25Scores.map Prod.fst).Nodup) :
    (c, specFusedScore faissScores bm25Scores c) ∈ reciprocalRankFusion faissScores bm25Scores ∧
    ∀ p ∈ reciprocalRankFusion faissScores bm25Scores,
      p.2 ≤ specFusedScore faissScores bm25Scores c := by
  have hcf : c ∈ faissScores.map Prod.fst := by rw [hf]; simp
  refine ⟨rrf_mem_of_candidate _ _ c hfn hbn (Or.inl hcf), fun p hp => ?_⟩
  rw [rrf_mem_score _ _ p hfn hbn hp]
  have hc_f : specRank faissScores c = 0 := by rw [hf]; exact specRank_cons_self c q1 rest1
  have hc_b : specRank bm25Scores c = 0 := by rw [hb]; exact specRank_cons_self c q2 rest2
  unfold specFusedScore
  rw [hc_f, hc_b]
  have t1 : (1 : ℚ) / (60 + (specRank faissScores p.1 : ℚ) + 1) ≤ 1 / (60 + ((0 : Nat) : ℚ) + 1) := by
    apply one_div_le_one_div_of_le
    · norm_num
    · have : (0 : ℚ) ≤ (specRank faissScores p.1 : ℚ) := Nat.cast_nonneg _
      push_cast
      linarith
  have t2 : (1 : ℚ) / (60 + (specRank bm25Scores p.1 : ℚ) + 1) ≤ 1 / (60 + ((0 : Nat) : ℚ) + 1) := by
    apply one_div_le_one_div_of_le
    · norm_num
    · have : (0 : ℚ) ≤ (specRank bm25Scores p.1 : ℚ) := Nat.cast_nonneg _
      push_cast
      linarith
  linarith

theorem rrf_rank_zero_both_highest_witness :
    let f : List (String × ℚ) := [("a", 2), ("b", 1)]
    let b : List (String × ℚ) := [("a", 7), ("c", 3)]
    ("a", specFusedScore f b "a") ∈ reciprocalRankFusion f b ∧
    ∀ p ∈ reciprocalRankFusion f b, p.2 ≤ specFusedScore f b "a" :=
  rrf_rank_zero_both_highest _ _ "a" 2 7 [("b", 1)] [("c", 3)] rfl rfl
    (by decide) (by decide)

/-! ### C5, C6, C7: link graph invariants -/

theorem foldl_preserves {σ α : Type} (P : σ → Prop) (f : σ → α → σ)
    (hstep : ∀ s a, P s → P (f s a)) :
    ∀ (l : List α) (s : σ), P s → P (l.foldl f s) := by
  intro l
  induction l with
  | nil => exact fun s h => h
  | cons hd t ih => exact fun s h => ih _ (hstep s hd h)

def seeAlsoView (g : LGraph) (p : String) : Option (List String) :=
  (dictGet g p).map LinkEntry.see_also

theorem seeAlsoView_dictUpdate (m : LGraph) (k : String) (f : LinkEntry → LinkEntry)
    (p : String) (hf : ∀ e, (f e).see_also = e.see_also) :
    seeAlsoView (dictUpdate m k f) p = seeAlsoView m p := by
  unfold seeAlsoView
  by_cases hp : p = k
  · subst hp
    rw [dictGet_dictUpdate_self]
    cases dictGet m p with
    | none => rfl
    | some e => simp [hf]
  · rw [dictGet_dictUpdate_ne _ _ _ _ hp]

theorem seeAlsoView_setParentChild (g : LGraph) (a b p : String) :
    seeAlsoView (setParentChild g a b) p = seeAlsoView g p := by
  unfold setParentChild
  by_cases hmem : a ∈ ((dictGet (dictUpdate g a fun e => { e with parent := some b }) b).map
      LinkEntry.children).getD []
  · rw [if_pos hmem]
    exact seeAlsoView_dictUpdate _ _ _ _ (fun e => rfl)
  · rw [if_neg hmem]
    rw [seeAlsoView_dictUpdate _ b (fun e => { e with children := e.children ++ [a] }) p
        (fun e => rfl),
      seeAlsoView_dictUpdate g a (fun e => { e with parent := some b }) p (fun e => rfl)]

/-- Any graph property preserved by `setParentChild` is preserved by the
whole TOC walk. -/
theorem processTocList_preserves (ptid : List (String × String)) (P : LGraph → Prop)
    (hstep : ∀ g a b, P g → P (setParentChild g a b)) :
    ∀ (l : List TOCTreeNode) (parentId : Option String) (g : LGraph),
      P g → P (processTocList ptid l parentId g) := by
  intro l parentId g
  induction l, parentId, g using processTocList.induct ptid with
  | case1 x g =>
    intro h
    rw [processTocList]
    exact h
  | case2 title path children rest parentId g gP ihc ih2 ih3 ihrest =>
    intro hP
    rw [processTocList.eq_2]
    apply ihrest
    unfold gP
    split
    · exact ihc hP
    · split
      · exact ihc hP
      · rename_i pageId heq
        split
        · exact ihc hP
        · apply ih3 pageId
          split
          · split
            · apply hstep
              exact hP
            · exact hP
          · exact hP

/-- The entries created by `build_graph`'s page loop all carry empty
`see_also` lists. -/
def allSeeAlsoEmpty (g : LGraph) : Prop :=
  ∀ p, seeAlsoView g p = none ∨ seeAlsoView g p = some []

theorem initGraph_allSeeAlsoEmpty (pages : List DocumentPage) :
    allSeeAlsoEmpty (initGraph pages) := by
  unfold initGraph
  refine foldl_preserves allSeeAlsoEmpty _ ?_ pages [] ?_
  · intro g page hg p
    unfold allSeeAlsoEmpty seeAlsoView at *
    by_cases hp : p = page.id
    · subst hp
      rw [dictGet_dictSet_self]
      right
      rfl
    · rw [dictGet_dictSet_ne _ _ _ _ hp]
      exact hg p
  · intro p
    left
    rfl

def noSelfSeeAlso (g : LGraph) : Prop :=
  ∀ p, p ∉ seeAlsoD g p

theorem noSelfSeeAlso_of_allEmpty (g : LGraph) (h : allSeeAlsoEmpty g) :
    noSelfSeeAlso g := by
  intro p
  unfold seeAlsoD
  rcases h p with h1 | h1 <;> unfold seeAlsoView at h1 <;> rw [h1] <;> simp

theorem addSeeAlsoForPage_noSelf (ptid : List (String × String))
    (page : DocumentPage) (g : LGraph) (hg : noSelfSeeAlso g) :
    noSelfSeeAlso (addSeeAlsoForPage ptid g page) := by
  unfold addSeeAlsoForPage
  by_cases hck : containsKey g page.id = true
  · rw [if_pos hck]
    refine foldl_preserves noSelfSeeAlso _ ?_ _ _ hg
    intro g2 linkPath hg2
    cases hres : resolveLinkPath ptid linkPath page.path with
    | none => exact hg2
    | some targetId =>
      dsimp only
      by_cases hguard : targetId ≠ "" ∧ targetId ≠ page.id
      · rw [if_pos hguard]
        by_cases hmem : targetId ∈ ((dictGet g2 page.id).map LinkEntry.see_also).getD []
        · rw [if_pos hmem]
          exact hg2
        · rw [if_neg hmem]
          intro p
          unfold seeAlsoD
          by_cases hp : p = page.id
          · subst hp
            rw [dictGet_dictUpdate_self]
            have hthis := hg2 page.id
            unfold seeAlsoD at hthis
            cases hgp : dictGet g2 page.id with
            | none => simp
            | some e =>
              rw [hgp] at hthis
              simp only [Option.map_some', Option.getD_some] at hthis ⊢
              simp only [List.mem_append, List.mem_singleton]
              rintro (hin | hin)
              · exact hthis hin
              · exact hguard.2 hin.symm
          · rw [dictGet_dictUpdate_ne _ _ _ _ hp]
            exact hg2 p
      · rw [if_neg hguard]
        exact hg2
  · rw [if_neg hck]
    exact hg

/-- C7: no page id occurs in its own `see_also` list in a built link graph:
the TOC phase never touches `see_also`, and the see-also phase filters
`target_id != page_id`. -/
theorem see_also_no_self_loops (toc : List TOCTreeNode) (pages : List DocumentPage)
    (p : String) : p ∉ seeAlsoD (buildGraph toc pages) p := by
  have h0 : allSeeAlsoEmpty (initGraph pages) := initGraph_allSeeAlsoEmpty pages
  have h1 : allSeeAlsoEmpty (processTocList (buildPathToId pages) toc none (initGraph pages)) := by
    apply processTocList_preserves _ allSeeAlsoEmpty _ _ _ _ h0
    intro g a b hg q
    rw [seeAlsoView_setParentChild]
    exact hg q
  have h2 : noSelfSeeAlso (processTocList (buildPathToId pages) toc none (initGraph pages)) :=
    noSelfSeeAlso_of_allEmpty _ h1
  have h3 : noSelfSeeAlso (buildGraph toc pages) := by
    unfold buildGraph addSeeAlsoRelationships
    apply foldl_preserves noSelfSeeAlso _ _ _ _ h2
    intro g page hg
    exact addSeeAlsoForPage_noSelf _ page g hg
  exact h3 p

/-- Test fixture: a page with the given id, path and outbound references. -/
def mkTestPage (id path : String) (sa : List String) : DocumentPage :=
  { id := id, source := .ARXMGD, title := "", path := path, content := "",
    html_content := "", anchors := [], see_also := sa, metadata := [] }

/-- C6 counterexample: resolution is case-sensitive and TOC paths get no
extension fallback.  With a page at `Alpha.html`, the outbound reference
`alpha.html` (differing only in case) does not resolve, so the see-also edge
is dropped; with a page at `b.html`, a TOC node path `b` (differing only by
the missing extension) does not resolve, so no parent edge is recorded. -/
theorem link_resolution_case_counterexample :
    let pages := [mkTestPage "a" "Alpha.html" [], mkTestPage "b" "b.html" ["alpha.html"],
      mkTestPage "p" "p.html" []]
    let toc : List TOCTreeNode := [.mk "P" "p.html" [.mk "B" "b" []]]
    resolveLinkPath (buildPathToId pages) "alpha.html" "b.html" = none ∧
    seeAlsoD (buildGraph toc pages) "b" = [] ∧
    parentD (buildGraph toc pages) "b" = none := by
  refine ⟨by decide, ?_, ?_⟩ <;>
    simp only [buildGraph, processTocList] <;> decide

/-- C6 amended: resolution is exact-match (case-sensitive); only outbound
references get the extension retries.  An outbound reference lacking `.html`
whose direct and relative lookups miss resolves to the id mapped for the
reference with `.html` appended. -/
theorem resolve_appends_html_extension (pages : List DocumentPage) (ref cur id : String)
    (h1 : strEndsWith ref ".html" = false)
    (h2 : dictGet (buildPathToId pages) ref = none)
    (h3 : dictGet (buildPathToId pages) (pathJoin (pathParent cur) ref) = none)
    (h4 : dictGet (buildPathToId pages) (ref ++ ".html") = some id) :
    resolveLinkPath (buildPathToId pages) ref cur = some id := by
  unfold resolveLinkPath
  rw [h2]
  dsimp only
  rw [h3]
  unfold tryExtension
  simp only [h1, Bool.false_eq_true, if_false]
  rw [h4]

theorem resolve_appends_html_extension_witness :
    resolveLinkPath
      (buildPathToId [mkTestPage "a" "Alpha.html" [], mkTestPage "b" "b.html" []])
      "Alpha" "b.html" = some "a" :=
  resolve_appends_html_extension _ "Alpha" "b.html" "a"
    (by decide) (by decide) (by decide) (by decide)

/-! ### C5 machinery: parent/children edges of the TOC walk -/

theorem containsKey_setParentChild (g : LGraph) (a b x : String) :
    containsKey (setParentChild g a b) x = containsKey g x := by
  unfold setParentChild
  by_cases hmem : a ∈ ((dictGet (dictUpdate g a fun e => { e with parent := some b }) b).map
      LinkEntry.children).getD []
  · rw [if_pos hmem, containsKey_dictUpdate]
  · rw [if_neg hmem, containsKey_dictUpdate, containsKey_dictUpdate]

theorem childrenD_dictUpdate_preserving (m : LGraph) (k : String) (f : LinkEntry → LinkEntry)
    (p : String) (hf : ∀ e, (f e).children = e.children) :
    childrenD (dictUpdate m k f) p = childrenD m p := by
  unfold childrenD
  by_cases hp : p = k
  · subst hp
    rw [dictGet_dictUpdate_self]
    cases dictGet m p with
    | none => rfl
    | some e => simp [hf]
  · rw [dictGet_dictUpdate_ne _ _ _ _ hp]

theorem parentD_dictUpdate_preserving (m : LGraph) (k : String) (f : LinkEntry → LinkEntry)
    (p : String) (hf : ∀ e, (f e).parent = e.parent) :
    parentD (dictUpdate m k f) p = parentD m p := by
  unfold parentD
  by_cases hp : p = k
  · subst hp
    rw [dictGet_dictUpdate_self]
    cases dictGet m p with
    | none => rfl
    | some e => simp [hf]
  · rw [dictGet_dictUpdate_ne _ _ _ _ hp]

theorem childrenD_setParentChild_mono (g : LGraph) (a b pp cc : String)
    (h : cc ∈ childrenD g pp) : cc ∈ childrenD (setParentChild g a b) pp := by
  unfold setParentChild
  have h1 : childrenD (dictUpdate g a fun e => { e with parent := some b }) pp = childrenD g pp :=
    childrenD_dictUpdate_preserving _ a (fun e => { e with parent := some b }) pp (fun e => rfl)
  by_cases hmem : a ∈ ((dictGet (dictUpdate g a fun e => { e with parent := some b }) b).map
      LinkEntry.children).getD []
  · rw [if_pos hmem, h1]
    exact h
  · rw [if_neg hmem]
    by_cases hp : pp = b
    · subst hp
      unfold childrenD
      rw [dictGet_dictUpdate_self]
      cases hgb : dictGet (dictUpdate g a fun e => { e with parent := some pp }) pp with
      | none =>
        unfold childrenD at h1
        rw [hgb] at h1
        simp only [Option.map_none', Option.getD_none] at h1
        unfold childrenD at h
        rw [← h1] at h
        cases h
      | some e =>
        unfold childrenD at h1
        rw [hgb] at h1
        simp only [Option.map_some', Option.getD_some] at h1 ⊢
        unfold childrenD at h
        rw [← h1] at h
        exact List.mem_append_left _ h
    · unfold childrenD
      rw [dictGet_dictUpdate_ne _ _ _ _ hp]
      unfold childrenD at h1
      rw [h1]
      exact h

theorem setParentChild_mem_children (g : LGraph) (pp cc : String)
    (hpp : containsKey g pp = true) : cc ∈ childrenD (setParentChild g cc pp) pp := by
  unfold setParentChild
  have hck : containsKey (dictUpdate g cc fun e => { e with parent := some pp }) pp = true := by
    rw [containsKey_dictUpdate]
    exact hpp
  rw [containsKey_eq_isSome] at hck
  obtain ⟨e, he⟩ := Option.isSome_iff_exists.mp hck
  by_cases hmem : cc ∈ ((dictGet (dictUpdate g cc fun e => { e with parent := some pp }) pp).map
      LinkEntry.children).getD []
  · rw [if_pos hmem]
    unfold childrenD
    exact hmem
  · rw [if_neg hmem]
    unfold childrenD
    rw [dictGet_dictUpdate_self, he]
    simp

theorem setParentChild_parentD_self (g : LGraph) (cc pp : String)
    (hcc : containsKey g cc = true) : parentD (setParentChild g cc pp) cc = some pp := by
  unfold setParentChild
  rw [containsKey_eq_isSome] at hcc
  obtain ⟨e, he⟩ := Option.isSome_iff_exists.mp hcc
  have h1 : parentD (dictUpdate g cc fun e => { e with parent := some pp }) cc = some pp := by
    unfold parentD
    rw [dictGet_dictUpdate_self, he]
    rfl
  by_cases hmem : cc ∈ ((dictGet (dictUpdate g cc fun e => { e with parent := some pp }) pp).map
      LinkEntry.children).getD []
  · rw [if_pos hmem]
    exact h1
  · rw [if_neg hmem]
    rw [parentD_dictUpdate_preserving _ pp (fun e => { e with children := e.children ++ [cc] }) cc
      (fun e => rfl)]
    exact h1

theorem setParentChild_parentD_other (g : LGraph) (a b x : String) (hx : x ≠ a) :
    parentD (setParentChild g a b) x = parentD g x := by
  unfold setParentChild
  have h1 : parentD (dictUpdate g a fun e => { e with parent := some b }) x = parentD g x := by
    unfold parentD
    rw [dictGet_dictUpdate_ne _ _ _ _ hx]
  by_cases hmem : a ∈ ((dictGet (dictUpdate g a fun e => { e with parent := some b }) b).map
      LinkEntry.children).getD []
  · rw [if_pos hmem]
    exact h1
  · rw [if_neg hmem]
    rw [parentD_dictUpdate_preserving _ b (fun e => { e with children := e.children ++ [a] }) x
      (fun e => rfl)]
    exact h1

theorem buildPathToId_values_aux (pages : List DocumentPage) :
    ∀ (m : List (String × String)) (path pid : String),
      dictGet (pages.foldl (fun m p => dictSet m p.path p.id) m) path = some pid →
      dictGet m path = some pid ∨ pid ∈ pages.map DocumentPage.id := by
  induction pages with
  | nil => exact fun m path pid h => Or.inl h
  | cons pg rest ih =>
    intro m path pid h
    rw [List.foldl_cons] at h
    rcases ih _ _ _ h with h2 | h2
    · by_cases hp : path = pg.path
      · subst hp
        rw [dictGet_dictSet_self] at h2
        right
        rw [Option.some_inj] at h2
        simp [← h2]
      · rw [dictGet_dictSet_ne _ _ _ _ hp] at h2
        exact Or.inl h2
    · right
      simp [h2]

theorem buildPathToId_values (pages : List DocumentPage) (path pid : String)
    (h : dictGet (buildPathToId pages) path = some pid) :
    pid ∈ pages.map DocumentPage.id := by
  rcases buildPathToId_values_aux pages [] path pid h with h2 | h2
  · cases h2
  · exact h2

theorem initGraph_keys_aux (pages : List DocumentPage) :
    ∀ (g : LGraph) (pid : String),
      (containsKey g pid = true ∨ pid ∈ pages.map DocumentPage.id) →
      containsKey (pages.foldl
        (fun g p => dictSet g p.id { parent := none, children := [], see_also := [] }) g)
        pid = true := by
  induction pages with
  | nil =>
    intro g pid h
    rcases h with h | h
    · exact h
    · cases h
  | cons pg rest ih =>
    intro g pid h
    rw [List.foldl_cons]
    apply ih
    rw [containsKey_dictSet]
    by_cases hp : pid = pg.id
    · left
      rw [if_pos hp]
    · rcases h with h | h
      · left
        rw [if_neg hp]
        exact h
      · right
        simpa [hp] using h

theorem initGraph_keys (pages : List DocumentPage) (pid : String)
    (h : pid ∈ pages.map DocumentPage.id) :
    containsKey (initGraph pages) pid = true :=
  initGraph_keys_aux pages [] pid (Or.inr h)

/-- The invariant carried through the TOC walk: every page id the path map can
produce is a key of the graph. -/
def valuesInv (ptid : List (String × String)) (g : LGraph) : Prop :=
  ∀ path pid, dictGet ptid path = some pid → containsKey g pid = true

theorem valuesInv_init (pages : List DocumentPage) :
    valuesInv (buildPathToId pages) (initGraph pages) :=
  fun path pid h => initGraph_keys pages pid (buildPathToId_values pages path pid h)

theorem valuesInv_setParentChild (ptid : List (String × String)) (g : LGraph)
    (a b : String) (h : valuesInv ptid g) : valuesInv ptid (setParentChild g a b) := by
  intro path pid hget
  rw [containsKey_setParentChild]
  exact h path pid hget

theorem valuesInv_processTocList (ptid : List (String × String))
    (l : List TOCTreeNode) (parentId : Option String) (g : LGraph)
    (h : valuesInv ptid g) : valuesInv ptid (processTocList ptid l parentId g) :=
  processTocList_preserves ptid (valuesInv ptid)
    (fun g a b hg => valuesInv_setParentChild ptid g a b hg) l parentId g h

theorem processTocList_containsKey (ptid : List (String × String))
    (l : List TOCTreeNode) (parentId : Option String) (g : LGraph) (x : String)
    (h : containsKey g x = true) :
    containsKey (processTocList ptid l parentId g) x = true :=
  processTocList_preserves ptid (fun g => containsKey g x = true)
    (fun g a b hg => by
      show containsKey (setParentChild g a b) x = true
      rw [containsKey_setParentChild]
      exact hg) l parentId g h

theorem processTocList_children_mono (ptid : List (String × String))
    (l : List TOCTreeNode) (parentId : Option String) (g : LGraph) (pp cc : String)
    (h : cc ∈ childrenD g pp) :
    cc ∈ childrenD (processTocList ptid l parentId g) pp :=
  processTocList_preserves ptid (fun g => cc ∈ childrenD g pp)
    (fun g a b hg => childrenD_setParentChild_mono g a b pp cc hg) l parentId g h

theorem mem_resolvedIds_of_child (ptid : List (String × String)) (cc : String) :
    ∀ (l : List TOCTreeNode) (c : TOCTreeNode), c ∈ l →
      resolveNode ptid c.path = some cc → cc ∈ resolvedIds ptid l := by
  intro l
  induction l with
  | nil => intro c hc; cases hc
  | cons n rest ih =>
    intro c hc hres
    obtain ⟨t, p, cs⟩ := n
    rw [resolvedIds]
    rcases List.mem_cons.mp hc with hc | hc
    · subst hc
      rw [show TOCTreeNode.path (.mk t p cs) = p from rfl] at hres
      rw [hres]
      simp
    · simp only [List.mem_append]
      right
      exact ih c hc hres

theorem pairs_snd_mem_resolvedIds (ptid : List (String × String)) (pp cc : String) :
    ∀ (l : List TOCTreeNode), (pp, cc) ∈ resolvedPairs ptid l →
      cc ∈ resolvedIds ptid l := by
  intro l
  induction l using resolvedPairs.induct ptid with
  | case1 =>
    intro h
    rw [resolvedPairs] at h
    cases h
  | case2 t p cs rest ihcs ihrest =>
    intro h
    rw [resolvedPairs] at h
    rw [resolvedIds]
    simp only [List.mem_append] at h ⊢
    rcases h with (h | h) | h
    · cases hres : resolveNode ptid p with
      | none =>
        rw [hres] at h
        cases h
      | some pid =>
        rw [hres] at h
        obtain ⟨c, hc, hcc⟩ := List.mem_filterMap.mp h
        cases hres2 : resolveNode ptid c.path with
        | none =>
          rw [hres2] at hcc
          cases hcc
        | some cid =>
          rw [hres2] at hcc
          rw [Option.map_some'] at hcc
          rw [Option.some_inj, Prod.mk.injEq] at hcc
          rw [hcc.2] at hres2
          left
          right
          exact mem_resolvedIds_of_child ptid cc cs c hc hres2
    · left
      right
      exact ihcs h
    · right
      exact ihrest h

theorem processTocList_nil (ptid : List (String × String)) (x : Option String)
    (g : LGraph) : processTocList ptid [] x g = g := by
  rw [processTocList]

theorem processTocList_cons_eq (ptid : List (String × String)) (n : TOCTreeNode)
    (rest : List TOCTreeNode) (parentId : Option String) (g : LGraph) :
    processTocList ptid (n :: rest) parentId g =
    processTocList ptid rest parentId (processTocList ptid [n] parentId g) := by
  obtain ⟨t, p, cs⟩ := n
  rw [processTocList.eq_2, processTocList.eq_2, processTocList_nil]

theorem processTocList_parent_frame (ptid : List (String × String)) (cc : String) :
    ∀ (l : List TOCTreeNode) (parentId : Option String) (g : LGraph),
      cc ∉ resolvedIds ptid l →
      parentD (processTocList ptid l parentId g) cc = parentD g cc := by
  intro l parentId g
  induction l, parentId, g using processTocList.induct ptid with
  | case1 x g =>
    intro h
    rw [processTocList]
  | case2 title path children rest parentId g gP ihc ih2 ih3 ihrest =>
    intro hnotin
    rw [resolvedIds] at hnotin
    simp only [List.mem_append, not_or] at hnotin
    obtain ⟨⟨hn1, hn2⟩, hn3⟩ := hnotin
    rw [processTocList.eq_2]
    refine (ihrest hn3).trans ?_
    unfold gP
    split
    · exact ihc hn2
    · rename_i hpath
      split
      · exact ihc hn2
      · rename_i pageId heq
        split
        · exact ihc hn2
        · rename_i hpid
          rw [ih3 pageId hn2]
          have hres : resolveNode ptid path = some pageId := by
            unfold resolveNode
            rw [if_neg hpath, heq]
            dsimp only
            rw [if_neg hpid]
          rw [hres] at hn1
          simp only [List.mem_singleton] at hn1
          split
          · rename_i par hpar
            split
            · exact setParentChild_parentD_other g pageId _ cc hn1
            · rfl
          · rfl

theorem resolveNode_some_parts (ptid : List (String × String)) (p cc : String)
    (hres : resolveNode ptid p = some cc) :
    p ≠ "" ∧ dictGet ptid p = some cc ∧ cc ≠ "" := by
  unfold resolveNode at hres
  by_cases hp0 : p = ""
  · rw [if_pos hp0] at hres
    cases hres
  · rw [if_neg hp0] at hres
    cases hget : dictGet ptid p with
    | none =>
      rw [hget] at hres
      cases hres
    | some pid =>
      rw [hget] at hres
      dsimp only at hres
      by_cases hpid0 : pid = ""
      · rw [if_pos hpid0] at hres
        cases hres
      · rw [if_neg hpid0] at hres
        rw [Option.some_inj] at hres
        subst hres
        exact ⟨hp0, rfl, hpid0⟩

theorem processTocList_child_of_list (ptid : List (String × String)) (pp cc : String) :
    ∀ (l : List TOCTreeNode) (g : LGraph) (c : TOCTreeNode),
      c ∈ l → resolveNode ptid c.path = some cc → pp ≠ "" →
      containsKey g pp = true → valuesInv ptid g →
      cc ∈ childrenD (processTocList ptid l (some pp) g) pp := by
  intro l
  induction l with
  | nil =>
    intro g c hc
    cases hc
  | cons n rest ih =>
    intro g c hc hres hpp hkey hval
    rw [processTocList_cons_eq]
    rcases List.mem_cons.mp hc with hc1 | hc2
    · apply processTocList_children_mono
      subst hc1
      obtain ⟨t, p, cs⟩ := c
      rw [show TOCTreeNode.path (.mk t p cs) = p from rfl] at hres
      obtain ⟨hp0, hget, hcc0⟩ := resolveNode_some_parts ptid p cc hres
      rw [processTocList.eq_2, processTocList_nil]
      rw [if_neg hp0, hget]
      dsimp only
      rw [if_neg hcc0]
      rw [if_pos ⟨hpp, hval p cc hget⟩]
      apply processTocList_children_mono
      exact setParentChild_mem_children g pp cc hkey
    · exact ih _ c hc2 hres hpp
        (processTocList_containsKey _ _ _ _ _ hkey)
        (valuesInv_processTocList _ _ _ _ hval)

theorem valuesInv_g1 (ptid : List (String × String)) (g : LGraph)
    (parentId : Option String) (pageId : String) (hval : valuesInv ptid g) :
    valuesInv ptid
      (match parentId with
       | some par => if par ≠ "" ∧ containsKey g pageId = true then setParentChild g pageId par else g
       | none => g) := by
  split
  · split
    · exact valuesInv_setParentChild ptid g _ _ hval
    · exact hval
  · exact hval

theorem processTocList_children_establish (ptid : List (String × String)) (pp cc : String) :
    ∀ (l : List TOCTreeNode) (parentId : Option String) (g : LGraph),
      (pp, cc) ∈ resolvedPairs ptid l → valuesInv ptid g →
      cc ∈ childrenD (processTocList ptid l parentId g) pp := by
  intro l parentId g
  induction l, parentId, g using processTocList.induct ptid with
  | case1 x g =>
    intro h _
    rw [resolvedPairs] at h
    cases h
  | case2 title path children rest parentId g gP ihc ih2 ih3 ihrest =>
    intro hpair hval
    rw [resolvedPairs] at hpair
    simp only [List.mem_append] at hpair
    rw [processTocList.eq_2]
    have hvalP : valuesInv ptid gP := by
      unfold gP
      split
      · exact valuesInv_processTocList _ _ _ _ hval
      · split
        · exact valuesInv_processTocList _ _ _ _ hval
        · split
          · exact valuesInv_processTocList _ _ _ _ hval
          · exact valuesInv_processTocList _ _ _ _ (valuesInv_g1 ptid g parentId _ hval)
    rcases hpair with (hdir | hch) | hrest
    · -- direct pair: establish inside gP, then monotone over rest
      apply processTocList_children_mono
      show cc ∈ childrenD gP pp
      unfold gP
      split
      · rename_i hpath
        rw [show resolveNode ptid path = none from by unfold resolveNode; rw [if_pos hpath]] at hdir
        cases hdir
      · rename_i hpath
        split
        · rename_i heq
          rw [show resolveNode ptid path = none from by
            unfold resolveNode; rw [if_neg hpath, heq]] at hdir
          cases hdir
        · rename_i pageId heq
          split
          · rename_i hpid
            rw [show resolveNode ptid path = none from by
              unfold resolveNode; rw [if_neg hpath, heq]; dsimp only; rw [if_pos hpid]] at hdir
            cases hdir
          · rename_i hpid
            have hres : resolveNode ptid path = some pageId := by
              unfold resolveNode
              rw [if_neg hpath, heq]
              dsimp only
              rw [if_neg hpid]
            rw [hres] at hdir
            obtain ⟨c, hc, hmapeq⟩ := List.mem_filterMap.mp hdir
            cases hres2 : resolveNode ptid c.path with
            | none =>
              rw [hres2] at hmapeq
              cases hmapeq
            | some cid =>
              rw [hres2] at hmapeq
              rw [Option.map_some', Option.some_inj, Prod.mk.injEq] at hmapeq
              obtain ⟨hppq, hccq⟩ := hmapeq
              rw [hccq] at hres2
              obtain ⟨hp0, hget, hpid0⟩ := resolveNode_some_parts ptid path pageId hres
              subst hppq
              exact processTocList_child_of_list ptid pageId cc children _ c hc hres2 hpid0
                (valuesInv_g1 ptid g parentId pageId hval path pageId hget)
                (valuesInv_g1 ptid g parentId pageId hval)
    · -- pair inside the children subtrees
      apply processTocList_children_mono
      show cc ∈ childrenD gP pp
      unfold gP
      split
      · exact ihc hch hval
      · split
        · exact ihc hch hval
        · split
          · exact ihc hch hval
          · rename_i pageId heq hpid
            exact ih3 pageId hch (valuesInv_g1 ptid g parentId pageId hval)
    · exact ihrest hrest hvalP

theorem processTocList_parent_inner (ptid : List (String × String)) (pp cc : String) :
    ∀ (l : List TOCTreeNode) (g : LGraph) (c : TOCTreeNode),
      c ∈ l → resolveNode ptid c.path = some cc → pp ≠ "" →
      (resolvedIds ptid l).Nodup → valuesInv ptid g →
      parentD (processTocList ptid l (some pp) g) cc = some pp := by
  intro l
  induction l with
  | nil =>
    intro g c hc
    cases hc
  | cons n rest ih =>
    intro g c hc hres hpp hnodup hval
    rw [processTocList_cons_eq]
    rcases List.mem_cons.mp hc with hc1 | hc2
    · -- c is the head node: its processing sets the parent edge; the nodup
      -- hypothesis shows nothing later can overwrite it.
      subst hc1
      obtain ⟨t, p, cs⟩ := c
      rw [show TOCTreeNode.path (.mk t p cs) = p from rfl] at hres
      obtain ⟨hp0, hget, hcc0⟩ := resolveNode_some_parts ptid p cc hres
      rw [resolvedIds] at hnodup
      rw [hres] at hnodup
      rw [List.nodup_append] at hnodup
      obtain ⟨hA, hB, hdisj⟩ := hnodup
      rw [List.nodup_append] at hA
      obtain ⟨_, hcsnodup, hdisj2⟩ := hA
      have hccnotcs : cc ∉ resolvedIds ptid cs := fun hmem => hdisj2 (by simp) hmem
      have hccnotrest : cc ∉ resolvedIds ptid rest := fun hmem =>
        hdisj (List.mem_append_left _ (by simp)) hmem
      rw [processTocList_parent_frame ptid cc rest (some pp) _ hccnotrest]
      rw [processTocList.eq_2, processTocList_nil]
      rw [if_neg hp0, hget]
      dsimp only
      rw [if_neg hcc0]
      rw [if_pos ⟨hpp, hval p cc hget⟩]
      rw [processTocList_parent_frame ptid cc cs (some cc) _ hccnotcs]
      exact setParentChild_parentD_self g cc pp (hval p cc hget)
    · -- c is further on: the head node cannot resolve to cc by nodup.
      have hccrest : cc ∈ resolvedIds ptid rest :=
        mem_resolvedIds_of_child ptid cc rest c hc2 hres
      obtain ⟨t, p, cs⟩ := n
      rw [resolvedIds] at hnodup
      rw [List.nodup_append] at hnodup
      obtain ⟨hA, hB, hdisj⟩ := hnodup
      exact ih _ c hc2 hres hpp hB
        (valuesInv_processTocList _ _ _ _ hval)

theorem processTocList_parent_establish (ptid : List (String × String)) (pp cc : String) :
    ∀ (l : List TOCTreeNode) (parentId : Option String) (g : LGraph),
      (pp, cc) ∈ resolvedPairs ptid l → (resolvedIds ptid l).Nodup →
      valuesInv ptid g →
      parentD (processTocList ptid l parentId g) cc = some pp := by
  intro l parentId g
  induction l, parentId, g using processTocList.induct ptid with
  | case1 x g =>
    intro h _ _
    rw [resolvedPairs] at h
    cases h
  | case2 title path children rest parentId g gP ihc ih2 ih3 ihrest =>
    intro hpair hnodup hval
    rw [resolvedPairs] at hpair
    simp only [List.mem_append] at hpair
    rw [resolvedIds, List.nodup_append] at hnodup
    obtain ⟨hA, hB, hdisj⟩ := hnodup
    rw [processTocList.eq_2]
    have hvalP : valuesInv ptid gP := by
      unfold gP
      split
      · exact valuesInv_processTocList _ _ _ _ hval
      · split
        · exact valuesInv_processTocList _ _ _ _ hval
        · split
          · exact valuesInv_processTocList _ _ _ _ hval
          · exact valuesInv_processTocList _ _ _ _ (valuesInv_g1 ptid g parentId _ hval)
    rcases hpair with (hdir | hch) | hrest
    · -- direct pair in this node
      have hccch : cc ∈ resolvedIds ptid children := by
        cases hres : resolveNode ptid path with
        | none =>
          rw [hres] at hdir
          cases hdir
        | some pageId =>
          rw [hres] at hdir
          obtain ⟨c, hc, hmapeq⟩ := List.mem_filterMap.mp hdir
          cases hres2 : resolveNode ptid c.path with
          | none =>
            rw [hres2] at hmapeq
            cases hmapeq
          | some cid =>
            rw [hres2] at hmapeq
            rw [Option.map_some', Option.some_inj, Prod.mk.injEq] at hmapeq
            rw [hmapeq.2] at hres2
            exact mem_resolvedIds_of_child ptid cc children c hc hres2
      have hccnotrest : cc ∉ resolvedIds ptid rest := fun hmem =>
        hdisj (List.mem_append_right _ hccch) hmem
      refine Eq.trans (processTocList_parent_frame ptid cc rest parentId _ hccnotrest) ?_
      show parentD gP cc = some pp
      have hAnodup : (resolvedIds ptid children).Nodup := hA.of_append_right
      unfold gP
      split
      · rename_i hpath
        rw [show resolveNode ptid path = none from by unfold resolveNode; rw [if_pos hpath]] at hdir
        cases hdir
      · rename_i hpath
        split
        · rename_i heq
          rw [show resolveNode ptid path = none from by
            unfold resolveNode; rw [if_neg hpath, heq]] at hdir
          cases hdir
        · rename_i pageId heq
          split
          · rename_i hpid
            rw [show resolveNode ptid path = none from by
              unfold resolveNode; rw [if_neg hpath, heq]; dsimp only; rw [if_pos hpid]] at hdir
            cases hdir
          · rename_i hpid
            have hres : resolveNode ptid path = some pageId := by
              unfold resolveNode
              rw [if_neg hpath, heq]
              dsimp only
              rw [if_neg hpid]
            rw [hres] at hdir
            obtain ⟨c, hc, hmapeq⟩ := List.mem_filterMap.mp hdir
            cases hres2 : resolveNode ptid c.path with
            | none =>
              rw [hres2] at hmapeq
              cases hmapeq
            | some cid =>
              rw [hres2] at hmapeq
              rw [Option.map_some', Option.some_inj, Prod.mk.injEq] at hmapeq
              obtain ⟨hppq, hccq⟩ := hmapeq
              rw [hccq] at hres2
              obtain ⟨hp0, hget, hpid0⟩ := resolveNode_some_parts ptid path pageId hres
              subst hppq
              exact processTocList_parent_inner ptid pageId cc children _ c hc hres2 hpid0
                hAnodup (valuesInv_g1 ptid g parentId pageId hval)
    · -- pair inside the children subtrees
      have hccch : cc ∈ resolvedIds ptid children := pairs_snd_mem_resolvedIds ptid pp cc children hch
      have hccnotrest : cc ∉ resolvedIds ptid rest := fun hmem =>
        hdisj (List.mem_append_right _ hccch) hmem
      refine Eq.trans (processTocList_parent_frame ptid cc rest parentId _ hccnotrest) ?_
      show parentD gP cc = some pp
      have hAnodup : (resolvedIds ptid children).Nodup := hA.of_append_right
      unfold gP
      split
      · exact ihc hch hAnodup hval
      · split
        · exact ihc hch hAnodup hval
        · split
          · exact ihc hch hAnodup hval
          · rename_i pageId heq hpid
            exact ih3 pageId hch hAnodup (valuesInv_g1 ptid g parentId pageId hval)
    · exact ihrest hrest hB hvalP

theorem childrenD_seeAlsoFold (ptid : List (String × String)) (page : DocumentPage)
    (p : String) :
    ∀ (links : List String) (g : LGraph),
      childrenD (links.foldl (fun g2 linkPath =>
        match resolveLinkPath ptid linkPath page.path with
        | some targetId =>
          if targetId ≠ "" ∧ targetId ≠ page.id then
            if targetId ∈ ((dictGet g2 page.id).map LinkEntry.see_also).getD [] then g2
            else dictUpdate g2 page.id fun e => { e with see_also := e.see_also ++ [targetId] }
          else g2
        | none => g2) g) p = childrenD g p := by
  intro links
  induction links with
  | nil => exact fun g => rfl
  | cons lk rest ih =>
    intro g
    rw [List.foldl_cons, ih]
    cases hres : resolveLinkPath ptid lk page.path with
    | none => rfl
    | some targetId =>
      dsimp only
      by_cases hguard : targetId ≠ "" ∧ targetId ≠ page.id
      · rw [if_pos hguard]
        by_cases hmem : targetId ∈ ((dictGet g page.id).map LinkEntry.see_also).getD []
        · rw [if_pos hmem]
        · rw [if_neg hmem]
          exact childrenD_dictUpdate_preserving _ page.id
            (fun e => { e with see_also := e.see_also ++ [targetId] }) p (fun e => rfl)
      · rw [if_neg hguard]

theorem parentD_seeAlsoFold (ptid : List (String × String)) (page : DocumentPage)
    (p : String) :
    ∀ (links : List String) (g : LGraph),
      parentD (links.foldl (fun g2 linkPath =>
        match resolveLinkPath ptid linkPath page.path with
        | some targetId =>
          if targetId ≠ "" ∧ targetId ≠ page.id then
            if targetId ∈ ((dictGet g2 page.id).map LinkEntry.see_also).getD [] then g2
            else dictUpdate g2 page.id fun e => { e with see_also := e.see_also ++ [targetId] }
          else g2
        | none => g2) g) p = parentD g p := by
  intro links
  induction links with
  | nil => exact fun g => rfl
  | cons lk rest ih =>
    intro g
    rw [List.foldl_cons, ih]
    cases hres : resolveLinkPath ptid lk page.path with
    | none => rfl
    | some targetId =>
      dsimp only
      by_cases hguard : targetId ≠ "" ∧ targetId ≠ page.id
      · rw [if_pos hguard]
        by_cases hmem : targetId ∈ ((dictGet g page.id).map LinkEntry.see_also).getD []
        · rw [if_pos hmem]
        · rw [if_neg hmem]
          exact parentD_dictUpdate_preserving _ page.id
            (fun e => { e with see_also := e.see_also ++ [targetId] }) p (fun e => rfl)
      · rw [if_neg hguard]

theorem childrenD_addSeeAlsoForPage (ptid : List (String × String))
    (page : DocumentPage) (g : LGraph) (p : String) :
    childrenD (addSeeAlsoForPage ptid g page) p = childrenD g p := by
  unfold addSeeAlsoForPage
  by_cases hck : containsKey g page.id = true
  · rw [if_pos hck]
    exact childrenD_seeAlsoFold ptid page p page.see_also g
  · rw [if_neg hck]

theorem parentD_addSeeAlsoForPage (ptid : List (String × String))
    (page : DocumentPage) (g : LGraph) (p : String) :
    parentD (addSeeAlsoForPage ptid g page) p = parentD g p := by
  unfold addSeeAlsoForPage
  by_cases hck : containsKey g page.id = true
  · rw [if_pos hck]
    exact parentD_seeAlsoFold ptid page p page.see_also g
  · rw [if_neg hck]

theorem childrenD_addSeeAlsoRelationships (ptid : List (String × String))
    (pages : List DocumentPage) (p : String) :
    ∀ g, childrenD (addSeeAlsoRelationships ptid g pages) p = childrenD g p := by
  unfold addSeeAlsoRelationships
  induction pages with
  | nil => exact fun g => rfl
  | cons pg rest ih =>
    intro g
    rw [List.foldl_cons, ih, childrenD_addSeeAlsoForPage]

theorem parentD_addSeeAlsoRelationships (ptid : List (String × String))
    (pages : List DocumentPage) (p : String) :
    ∀ g, parentD (addSeeAlsoRelationships ptid g pages) p = parentD g p := by
  unfold addSeeAlsoRelationships
  induction pages with
  | nil => exact fun g => rfl
  | cons pg rest ih =>
    intro g
    rw [List.foldl_cons, ih, parentD_addSeeAlsoForPage]

/-- C5 counterexample: when a page occurs under two TOC parents, the
depth-first walk overwrites `graph[C].parent`, so the last parent wins and
the claimed `graph[C].parent == P` fails for the earlier pair.  Here both
`("p", "c")` and `("q", "c")` are resolved TOC parent/child pairs, yet the
built graph records `parent = "q"`, not `"p"`. -/
theorem toc_parent_overwrite_counterexample :
    let pages := [mkTestPage "p" "p.html" [], mkTestPage "q" "q.html" [],
      mkTestPage "c" "c.html" []]
    let toc : List TOCTreeNode :=
      [.mk "P" "p.html" [.mk "C" "c.html" []], .mk "Q" "q.html" [.mk "C" "c.html" []]]
    ("p", "c") ∈ resolvedPairs (buildPathToId pages) toc ∧
    parentD (buildGraph toc pages) "c" ≠ some "p" := by
  constructor
  · simp only [resolvedPairs]
    decide
  · simp only [buildGraph, processTocList]
    decide

/-- C5 amended: for every resolved TOC parent/child pair `(P, C)`,
`C ∈ graph[P].children` always holds; `graph[C].parent == P` holds
additionally whenever no two TOC nodes resolve to the same page id (without
that, the parent field records only the last resolved occurrence). -/
theorem toc_pairs_children_and_parent (toc : List TOCTreeNode)
    (pages : List DocumentPage) (pp cc : String)
    (hpair : (pp, cc) ∈ resolvedPairs (buildPathToId pages) toc) :
    cc ∈ childrenD (buildGraph toc pages) pp ∧
    ((resolvedIds (buildPathToId pages) toc).Nodup →
      parentD (buildGraph toc pages) cc = some pp) := by
  unfold buildGraph
  constructor
  · rw [childrenD_addSeeAlsoRelationships]
    exact processTocList_children_establish _ pp cc toc none _ hpair (valuesInv_init pages)
  · intro hnodup
    rw [parentD_addSeeAlsoRelationships]
    exact processTocList_parent_establish _ pp cc toc none _ hpair hnodup (valuesInv_init pages)

theorem toc_pairs_children_and_parent_witness :
    let pages := [mkTestPage "p" "p.html" [], mkTestPage "c" "c.html" []]
    let toc : List TOCTreeNode := [.mk "P" "p.html" [.mk "C" "c.html" []]]
    "c" ∈ childrenD (buildGraph toc pages) "p" ∧
    ((resolvedIds (buildPathToId pages) toc).Nodup →
      parentD (buildGraph toc pages) "c" = some "p") :=
  toc_pairs_children_and_parent _ _ "p" "c" (by simp only [resolvedPairs]; decide)

/-! ### C3: the chunk overlap property -/

theorem strAppend_eq_empty_left {a b : String} (h : "" = a ++ b) : a = "" := by
  have h1 : a.data ++ b.data = [] := by
    have h2 := congrArg String.data h
    rw [String.data_append] at h2
    exact h2.symm
  obtain ⟨ha, _⟩ := List.append_eq_nil.mp h1
  cases a with
  | mk d =>
    subst ha
    rfl

example (s : String) : "" ++ s = s := rfl

def overlapChain (cfg : ChunkCfg) (l : List EmittedChunk) : Prop :=
  l.Chain' (fun a b => ∃ t, b.content = getOverlapText cfg a.content ++ t)

def loopInv (cfg : ChunkCfg) (st : ChunkLoopState) : Prop :=
  st.dropped = false →
    overlapChain cfg st.chunks ∧
    ∀ c, st.chunks.getLast? = some c → ∃ t, st.buf = getOverlapText cfg c.content ++ t

theorem loopInv_init (cfg : ChunkCfg) : loopInv cfg initChunkState := by
  intro _
  constructor
  · exact List.chain'_nil
  · intro c hc
    cases hc

theorem chunkStep_inv (cfg : ChunkCfg) (st : ChunkLoopState) (sec : PageSection)
    (h : loopInv cfg st) : loopInv cfg (chunkStep cfg st sec) := by
  intro hdrop
  by_cases hclose : st.buf ≠ "" ∧ estimateTokens (st.buf ++ " " ++ sec.text) > cfg.target_tokens
  · rw [chunkStep, if_pos hclose] at hdrop ⊢
    dsimp only at hdrop ⊢
    rw [Bool.or_eq_false_iff] at hdrop
    obtain ⟨hd0, hemit⟩ := hdrop
    rw [Bool.not_eq_false'] at hemit
    rw [decide_eq_true_eq] at hemit
    obtain ⟨hchain, hlast⟩ := h hd0
    rw [if_pos hemit]
    constructor
    · rw [overlapChain, List.chain'_append]
      refine ⟨hchain, List.chain'_singleton _, ?_⟩
      intro x hx y hy
      rw [List.head?_cons, Option.mem_def, Option.some_inj] at hy
      subst hy
      exact hlast x hx
    · intro c hc
      rw [List.getLast?_concat, Option.some_inj] at hc
      subst hc
      show ∃ t, (if getOverlapText cfg st.buf ≠ "" then
          getOverlapText cfg st.buf ++ " " ++ sec.text else sec.text) =
        getOverlapText cfg (mkEmitted st.buf st.bufHtml st.idx st.off).content ++ t
      rw [show (mkEmitted st.buf st.bufHtml st.idx st.off).content = st.buf from rfl]
      by_cases hov : getOverlapText cfg st.buf ≠ ""
      · rw [if_pos hov]
        exact ⟨" " ++ sec.text, String.append_assoc _ _ _⟩
      · rw [if_neg hov]
        rw [Classical.not_not] at hov
        rw [hov]
        exact ⟨sec.text, rfl⟩
  · rw [chunkStep, if_neg hclose] at hdrop ⊢
    by_cases hbuf : st.buf ≠ ""
    · rw [if_pos hbuf] at hdrop ⊢
      dsimp only at hdrop ⊢
      obtain ⟨hchain, hlast⟩ := h hdrop
      refine ⟨hchain, ?_⟩
      intro c hc
      obtain ⟨t, ht⟩ := hlast c hc
      refine ⟨t ++ " " ++ sec.text, ?_⟩
      rw [ht, String.append_assoc, String.append_assoc, String.append_assoc]
    · rw [if_neg hbuf] at hdrop ⊢
      dsimp only at hdrop ⊢
      obtain ⟨hchain, hlast⟩ := h hdrop
      refine ⟨hchain, ?_⟩
      intro c hc
      obtain ⟨t, ht⟩ := hlast c hc
      rw [Classical.not_not] at hbuf
      rw [hbuf] at ht
      have hseed : getOverlapText cfg c.content = "" := strAppend_eq_empty_left ht
      rw [hseed]
      exact ⟨sec.text, rfl⟩


theorem chunkLoop_inv (cfg : ChunkCfg) (sections : List PageSection) :
    loopInv cfg (chunkLoop cfg sections) :=
  foldl_preserves (loopInv cfg) (chunkStep cfg)
    (fun st sec h => chunkStep_inv cfg st sec h) sections initChunkState (loopInv_init cfg)

/-- C3 amended: when no mid-page close drops a below-minimum buffer, every
chunk after the first starts verbatim with the overlap seed of its
predecessor. -/
theorem chunk_overlap_when_no_drop (cfg : ChunkCfg) (sections : List PageSection)
    (h : (chunkLoop cfg sections).dropped = false) :
    (chunkPageCore cfg sections).Chain'
      (fun a b => ∃ t, b.content = getOverlapText cfg a.content ++ t) := by
  obtain ⟨hchain, hlast⟩ := chunkLoop_inv cfg sections h
  unfold chunkPageCore
  by_cases hfin : (chunkLoop cfg sections).buf ≠ "" ∧
      estimateTokens (chunkLoop cfg sections).buf ≥ cfg.min_chunk_tokens
  · rw [if_pos hfin]
    rw [List.chain'_append]
    refine ⟨hchain, List.chain'_singleton _, ?_⟩
    intro x hx y hy
    rw [List.head?_cons, Option.mem_def, Option.some_inj] at hy
    subst hy
    exact hlast x hx
  · rw [if_neg hfin]
    exact hchain

theorem chunk_overlap_when_no_drop_witness :
    let cfg : ChunkCfg := { target_tokens := 10, overlap_tokens := 8, min_chunk_tokens := 2 }
    let secs : List PageSection :=
      [{ text := "aaaaaaaaaa bbbbbbbbbb cccccccccc dddddddddd", html := "h1" },
       { text := "eeee ffff", html := "h2" }]
    (chunkLoop cfg secs).dropped = false ∧
    (chunkPageCore cfg secs).Chain'
      (fun a b => ∃ t, b.content = getOverlapText cfg a.content ++ t) :=
  ⟨by decide, chunk_overlap_when_no_drop _ _ (by decide)⟩

/-- C3 counterexample: an intermediate close that drops a below-minimum
buffer reseeds the overlap from the dropped buffer, so the next emitted chunk
does not start with the overlap seed taken when its emitted predecessor was
closed.  Chunk 0 closes with seed `"cccccccccc dddddddddd"`, but chunk 1
starts with `"dddddddddd ee"`, the seed of the dropped in-between buffer. -/
theorem chunk_overlap_claim_counterexample :
    let cfg : ChunkCfg := { target_tokens := 10, overlap_tokens := 8, min_chunk_tokens := 10 }
    let secs : List PageSection :=
      [{ text := "aaaaaaaaaa bbbbbbbbbb cccccccccc dddddddddd", html := "h1" },
       { text := "ee", html := "h2" },
       { text := "ffffffffffffffffffffffffffffffffffffffffffffffffffffffffffff", html := "h3" }]
    (chunkPageCore cfg secs).map (fun c => c.content) =
      ["aaaaaaaaaa bbbbbbbbbb cccccccccc dddddddddd",
       "dddddddddd ee ffffffffffffffffffffffffffffffffffffffffffffffffffffffffffff"] ∧
    getOverlapText cfg "aaaaaaaaaa bbbbbbbbbb cccccccccc dddddddddd" =
      "cccccccccc dddddddddd" ∧
    ¬ ∃ t, ("dddddddddd ee ffffffffffffffffffffffffffffffffffffffffffffffffffffffffffff" : String) =
        "cccccccccc dddddddddd" ++ t := by
  refine ⟨by decide, by decide, ?_⟩
  rintro ⟨t, ht⟩
  have h1 : ("dddddddddd ee ffffffffffffffffffffffffffffffffffffffffffffffffffffffffffff" : String).data.take 21 =
      ("cccccccccc dddddddddd" : String).data := by
    rw [ht, String.data_append]
    rw [show (21 : Nat) = ("cccccccccc dddddddddd" : String).data.length from by decide]
    exact List.take_left _ _
  exact absurd h1 (by decide)

end AutocadApi
